import Mathlib

/-!
# Route planner (`src/route_planner.cpp`): A* search over a road graph

Shallow embedding of `RoutePlanner` and the properties of its search.

* Nodes are addressed by their index in the model's node vector (`Nat`);
  a `RouteModel::Node *` is such an index, `nullptr` is `none`.
* `float` values are elements of an arbitrary linearly ordered commutative
  ring `α` (exact arithmetic).
* Loops carry a fuel argument; the theorems show how much fuel is enough.
-/

set_option linter.unusedSectionVars false

namespace RoutePlanner

/-- The search fields of `RouteModel::Node` that `route_planner.cpp` reads and
writes. -/
structure Node (α : Type) where
  visited : Bool
  parent : Option Nat
  g_value : α
  h_value : α

/-- Modelled from the spec: the `RouteModel` collaborator (`route_model.h` is not
part of the sources). `neighbors i` is the adjacency list that
`Node::FindNeighbors()` leaves in `neighbors` of node `i` (idempotent, from the
fixed connectivity of the graph), `distance i j` is `Node::distance` between
nodes `i` and `j`, `MetricScale` the factor from graph units to metres. -/
structure RouteModel (α : Type) where
  neighbors : Nat → List Nat
  distance : Nat → Nat → α
  MetricScale : α

/-- One element of `m_Model.path`: a copy of a node (`emplace_back(*current_node)`),
kept with the index of the node it copies. -/
structure Snapshot (α : Type) where
  id : Nat
  node : Node α

/-- The mutable state: the search fields of every node of the model, the members
`open_list` and `distance` of `RoutePlanner`, and `m_Model.path`. -/
structure State (α : Type) where
  nodes : Nat → Node α
  open_list : List Nat
  distance : α
  path : List (Snapshot α)

/-- Ways in which the C++ code has no defined result, and the fuel of the model. -/
inductive Err where
  | nullParent
  | emptyOpenList
  | outOfFuel
  deriving DecidableEq, Repr

/-- The exit through which `AStarSearch` returns: the `return` inside the loop
(`found`) or the end of the `while` loop (`exhausted`). The C++ function is
`void`; this tag is not a value the caller receives. -/
inductive Exit where
  | found
  | exhausted
  deriving DecidableEq, Repr

/-- The contract of `std::sort`: the result is a permutation of the input, and
for a comparator that is a strict weak ordering (stated on its negation: of two
elements one does not go before the other, and "does not go before" is
transitive) no later element of the result goes before an earlier one. The order
of equivalent elements is left to the implementation. -/
structure StdSort where
  sort : (Nat → Nat → Bool) → List Nat → List Nat
  perm : ∀ (comp : Nat → Nat → Bool) (l : List Nat), (sort comp l).Perm l
  sorted : ∀ (comp : Nat → Nat → Bool) (l : List Nat),
    (∀ a b, comp b a = false ∨ comp a b = false) →
    (∀ a b c, comp b a = false → comp c b = false → comp c a = false) →
    (sort comp l).Pairwise (fun a b => comp b a = false)

section Defs

variable {α : Type} [LinearOrderedCommRing α]

/-- `RoutePlanner::CalculateHValue`: `node->distance(*end_node)`. -/
def CalculateHValue (m : RouteModel α) (end_node : Nat) (node : Nat) : α :=
  m.distance node end_node

/-- The body of the `for` loop of `RoutePlanner::AddNeighbors` for one
`neighbor_node`. -/
def AddNeighbors.visit (m : RouteModel α) (end_node : Nat) (current_node : Nat)
    (s : State α) (neighbor_node : Nat) : State α :=
  if (s.nodes neighbor_node).visited then s
  else
    { s with
      nodes := Function.update s.nodes neighbor_node
        { visited := true
          parent := some current_node
          g_value := (s.nodes current_node).g_value + m.distance neighbor_node current_node
          h_value := CalculateHValue m end_node neighbor_node }
      open_list := s.open_list ++ [neighbor_node] }

/-- `RoutePlanner::AddNeighbors`. -/
def AddNeighbors (m : RouteModel α) (end_node : Nat) (current_node : Nat)
    (s : State α) : State α :=
  (m.neighbors current_node).foldl (AddNeighbors.visit m end_node current_node) s

/-- `Compare` (and the lambda of `NextNode`):
`a->g_value + a->h_value > b->g_value + b->h_value`. -/
def Compare (a b : Node α) : Bool :=
  decide (a.g_value + a.h_value > b.g_value + b.h_value)

/-- `RoutePlanner::NextNode`: sort, take `back()`, `pop_back()`. On an empty
`open_list` `back()` has no defined result. -/
def NextNode (srt : StdSort) (s : State α) : Except Err (Nat × State α) :=
  let sorted := srt.sort (fun a b => Compare (s.nodes a) (s.nodes b)) s.open_list
  match sorted.getLast? with
  | none => .error .emptyOpenList
  | some next_node => .ok (next_node, { s with open_list := sorted.dropLast })

/-- The `while` loop of `RoutePlanner::ConstructFinalPath`: from `current_node`,
with the distance summed so far and `path_found` so far; the fuel bounds the
number of iterations. Returns the accumulated distance, `path_found` and the
node at which the loop stopped. -/
def ConstructFinalPath.walk (m : RouteModel α) (start_node : Nat) (nodes : Nat → Node α) :
    Nat → Nat → α → List (Snapshot α) → Except Err (α × List (Snapshot α) × Nat)
  | fuel, current_node, distance, path_found =>
    if current_node = start_node then .ok (distance, path_found, current_node)
    else
      match fuel with
      | 0 => .error .outOfFuel
      | fuel + 1 =>
        match (nodes current_node).parent with
        | none => .error .nullParent
        | some parent =>
          ConstructFinalPath.walk m start_node nodes fuel parent
            (distance + m.distance current_node parent)
            (path_found ++ [Snapshot.mk current_node (nodes current_node)])

/-- `RoutePlanner::ConstructFinalPath`: the returned vector and the state with the
member `distance` set. -/
def ConstructFinalPath (m : RouteModel α) (start_node : Nat) (fuel : Nat) (s : State α)
    (current_node : Nat) : Except Err (List (Snapshot α) × State α) :=
  match ConstructFinalPath.walk m start_node s.nodes fuel current_node 0 [] with
  | .error e => .error e
  | .ok (distance, path_found, last) =>
    .ok ((path_found ++ [Snapshot.mk last (s.nodes last)]).reverse,
         { s with distance := distance * m.MetricScale })

/-- The `while` loop of `RoutePlanner::AStarSearch`; `fuel` bounds the number of
iterations (calls of `NextNode`), `pfuel` is the fuel of `ConstructFinalPath`. -/
def AStarSearch.loop (srt : StdSort) (m : RouteModel α) (start_node end_node : Nat)
    (pfuel : Nat) : Nat → State α → Except Err (Exit × State α)
  | fuel, s =>
    if s.open_list.isEmpty then .ok (.exhausted, s)
    else
      match fuel with
      | 0 => .error .outOfFuel
      | fuel + 1 =>
        match NextNode srt s with
        | .error e => .error e
        | .ok (current_node, s1) =>
          if current_node = end_node then
            match ConstructFinalPath m start_node pfuel s1 current_node with
            | .error e => .error e
            | .ok (path_found, s2) => .ok (.found, { s2 with path := path_found, open_list := [] })
          else
            AStarSearch.loop srt m start_node end_node pfuel fuel
              (AddNeighbors m end_node current_node s1)

/-- The state when the `while` loop of `AStarSearch` is first reached:
`open_list.push_back(start_node); start_node->visited = true;`. -/
def AStarSearch.init (start_node : Nat) (s : State α) : State α :=
  { s with
    open_list := s.open_list ++ [start_node]
    nodes := Function.update s.nodes start_node { s.nodes start_node with visited := true } }

/-- `RoutePlanner::AStarSearch`, with the exit taken. -/
def AStarSearch.run (srt : StdSort) (m : RouteModel α) (start_node end_node : Nat)
    (fuel : Nat) (s : State α) : Except Err (Exit × State α) :=
  AStarSearch.loop srt m start_node end_node fuel fuel (AStarSearch.init start_node s)

/-- `RoutePlanner::AStarSearch` as the caller sees it: a `void` function whose
only result is the state it leaves. -/
def AStarSearch (srt : StdSort) (m : RouteModel α) (start_node end_node : Nat)
    (fuel : Nat) (s : State α) : Except Err (State α) :=
  match AStarSearch.run srt m start_node end_node fuel s with
  | .error e => .error e
  | .ok (_, s1) => .ok s1

end Defs

/-- A sort procedure meeting the contract of `std::sort`: insertion sort by the
negated comparator (equal keys keep their input order). -/
def insertionStdSort : StdSort where
  sort comp l := l.insertionSort (fun a b => comp b a = false)
  perm comp l := List.perm_insertionSort _ l
  sorted := by
    intro comp l htot htrans
    haveI : IsTotal Nat (fun a b => comp b a = false) := ⟨htot⟩
    haveI : IsTrans Nat (fun a b => comp b a = false) := ⟨htrans⟩
    exact List.sorted_insertionSort (fun a b => comp b a = false) l

section Defs2

variable {α : Type} [LinearOrderedCommRing α]

/-- The A* priority of a node: `g_value + h_value`. -/
def fValue (n : Node α) : α := n.g_value + n.h_value

/-- Number of nodes with index below `N` that are not visited. -/
def unvisitedCount (N : Nat) (nodes : Nat → Node α) : Nat :=
  ((Finset.range N).filter (fun i => (nodes i).visited = false)).card

/-- How one or more iterations of the loop of `AddNeighbors(n)` change the state:
nodes already visited keep their fields, the nodes appended to `open_list` are
exactly the newly visited ones, and each has `parent = n`. -/
structure Expands (m : RouteModel α) (N : Nat) (n : Nat) (s t : State α) : Prop where
  path_eq : t.path = s.path
  distance_eq : t.distance = s.distance
  keep : ∀ v, (s.nodes v).visited = true → t.nodes v = s.nodes v
  grow : ∃ new, t.open_list = s.open_list ++ new ∧
    new.length + unvisitedCount N t.nodes = unvisitedCount N s.nodes ∧
    (∀ w ∈ new, (s.nodes w).visited = false ∧ (t.nodes w).visited = true ∧
      (t.nodes w).parent = some n ∧ w ∈ m.neighbors n ∧ w < N) ∧
    (∀ v, (t.nodes v).visited = true → (s.nodes v).visited = true ∨ v ∈ new)


/-- Sum of `d p q` over the consecutive pairs `(p, q)` of a list of nodes. -/
def pathLength (d : Nat → Nat → α) : List Nat → α
  | p :: q :: rest => d p q + pathLength d (q :: rest)
  | _ => 0

/-- The nodes of a path, as a list of node indices. -/
def pathIds (path : List (Snapshot α)) : List Nat :=
  path.map Snapshot.id

/-- `end_node` can be reached from `start_node` through the neighbour lists. -/
def Reachable (m : RouteModel α) (a b : Nat) : Prop :=
  Relation.ReflTransGen (fun p q => q ∈ m.neighbors p) a b

/-- A graph with `N` nodes: the neighbour lists of nodes below `N` hold nodes
below `N`. -/
def WellFormed (m : RouteModel α) (N : Nat) : Prop :=
  ∀ i, i < N → ∀ j ∈ m.neighbors i, j < N

/-- A fresh state: `open_list` is empty and no node is visited. -/
def Fresh (s : State α) : Prop :=
  s.open_list = [] ∧ ∀ i, (s.nodes i).visited = false

/-- `ParentChain m start_node nodes v l`: following `parent` from `v` leads to
`start_node` through the nodes `l` (from `v` to `start_node`, both included);
every step goes from a visited node to a node that has it in its neighbour
list, and no node occurs twice. -/
inductive ParentChain (m : RouteModel α) (start_node : Nat) (nodes : Nat → Node α) :
    Nat → List Nat → Prop
  | base : ParentChain m start_node nodes start_node [start_node]
  | step {v p : Nat} {l : List Nat} : v ≠ start_node → (nodes v).visited = true →
      (nodes v).parent = some p → v ∈ m.neighbors p → v ∉ l →
      ParentChain m start_node nodes p l → ParentChain m start_node nodes v (v :: l)

/-- The invariant of the `while` loop of `AStarSearch` on a graph with `N` nodes. -/
structure Inv (m : RouteModel α) (N start_node end_node : Nat) (s : State α) : Prop where
  start_visited : (s.nodes start_node).visited = true
  open_visited : ∀ v ∈ s.open_list, (s.nodes v).visited = true
  visited_lt : ∀ v, (s.nodes v).visited = true → v < N
  chain : ∀ v, (s.nodes v).visited = true → ∃ l, ParentChain m start_node s.nodes v l
  closed : ∀ v, (s.nodes v).visited = true →
    v ∈ s.open_list ∨ ∀ w ∈ m.neighbors v, (s.nodes w).visited = true
  end_pending : (s.nodes end_node).visited = true → end_node ∈ s.open_list

/-- Two states that differ at most in the order of `open_list`. -/
def SameUpToOrder (s t : State α) : Prop :=
  t.nodes = s.nodes ∧ t.distance = s.distance ∧ t.path = s.path ∧ t.open_list.Perm s.open_list

/-- `TieFreeRun m end_node s`: in the run of the loop of `AStarSearch` from the
state `s`, at every extraction one node of `open_list` has a `g_value + h_value`
strictly below that of every other node of `open_list` (so there is no tie for
`NextNode` to break), until `end_node` is extracted or `open_list` is empty. -/
inductive TieFreeRun (m : RouteModel α) (end_node : Nat) : State α → Prop
  | exhausted {s : State α} : s.open_list = [] → TieFreeRun m end_node s
  | found {s : State α} : end_node ∈ s.open_list →
      (∀ x ∈ s.open_list, x ≠ end_node →
        fValue (s.nodes end_node) < fValue (s.nodes x)) →
      TieFreeRun m end_node s
  | step {s : State α} {n : Nat} : n ∈ s.open_list → n ≠ end_node →
      (∀ x ∈ s.open_list, x ≠ n → fValue (s.nodes n) < fValue (s.nodes x)) →
      TieFreeRun m end_node
        (AddNeighbors m end_node n { s with open_list := s.open_list.erase n }) →
      TieFreeRun m end_node s

/-- Each element of a list once, at the place of its first occurrence. -/
def keepFirst : List Nat → List Nat
  | [] => []
  | w :: l => w :: (keepFirst l).filter (fun x => x ≠ w)

/-- The neighbours that `AddNeighbors(c)` has to insert, in the words of the spec:
the neighbours of `c` that are not visited before the call, each once, in the
order of the neighbour list. -/
def newNeighbors (m : RouteModel α) (c : Nat) (s : State α) : List Nat :=
  keepFirst ((m.neighbors c).filter (fun w => !(s.nodes w).visited))

/-- `Reached srt m end_node s0 ex s`: the `while` loop of `AStarSearch`, entered in
the state `s0`, is at its head in the state `s` after the iterations that
extracted the nodes `ex`, in this order, with `NextNode` and expanded them with
`AddNeighbors` (none of them is `end_node`, at which the loop is left). -/
inductive Reached (srt : StdSort) (m : RouteModel α) (end_node : Nat) (s0 : State α) :
    List Nat → State α → Prop
  | start : Reached srt m end_node s0 [] s0
  | step {ex : List Nat} {s s1 : State α} {n : Nat} : Reached srt m end_node s0 ex s →
      s.open_list ≠ [] → NextNode srt s = .ok (n, s1) → n ≠ end_node →
      Reached srt m end_node s0 (ex ++ [n]) (AddNeighbors m end_node n s1)

/-- The invariant of the loop of `AStarSearch` on any graph, with the nodes `ex`
extracted so far: the nodes inserted into `open_list` so far are the nodes of
`ex` and of `open_list`, they are the visited nodes, none occurs twice; every
visited node has a parent chain, and its `g_value` is that of `start_node`
(`g0`) plus the length of the chain. -/
structure RunInv (m : RouteModel α) (start_node : Nat) (g0 : α) (ex : List Nat)
    (s : State α) : Prop where
  start_visited : (s.nodes start_node).visited = true
  g_start : (s.nodes start_node).g_value = g0
  open_visited : ∀ v ∈ s.open_list, (s.nodes v).visited = true
  ex_visited : ∀ v ∈ ex, (s.nodes v).visited = true
  nodup : (ex ++ s.open_list).Nodup
  visited_mem : ∀ v, (s.nodes v).visited = true → v ∈ ex ∨ v ∈ s.open_list
  chain : ∀ v, (s.nodes v).visited = true → ∃ l, ParentChain m start_node s.nodes v l
  g_chain : ∀ v l, ParentChain m start_node s.nodes v l →
    (s.nodes v).g_value = g0 + pathLength m.distance l

end Defs2

/-! ### Concrete graphs -/

/-- A fresh state over `Int`: no node visited, no parent set, empty `open_list`
and `path`. -/
def freshState : State Int where
  nodes := fun _ => { visited := false, parent := none, g_value := 0, h_value := 0 }
  open_list := []
  distance := 0
  path := []

/-- Coordinates of the three nodes of the line graph: (0,0), (3,0), (3,4). -/
def linePos : Nat → Int × Int
  | 0 => (0, 0)
  | 1 => (3, 0)
  | _ => (3, 4)

/-- The line graph 0 - 1 - 2 on the points `linePos`, with the straight-line
distances between them (3, 4 and 5) and scale 2. -/
def lineModel : RouteModel Int where
  neighbors := fun i => match i with
    | 0 => [1]
    | 1 => [0, 2]
    | 2 => [1]
    | _ => []
  distance := fun i j => match i, j with
    | 0, 1 => 3
    | 1, 0 => 3
    | 1, 2 => 4
    | 2, 1 => 4
    | 0, 2 => 5
    | 2, 0 => 5
    | _, _ => 0
  MetricScale := 2

/-- A graph with two components, 0 - 1 and 2 - 3 (all nodes on a line, one unit
apart). -/
def islandsModel : RouteModel Int where
  neighbors := fun i => match i with
    | 0 => [1]
    | 1 => [0]
    | 2 => [3]
    | 3 => [2]
    | _ => []
  distance := fun i j => |(i : Int) - (j : Int)|
  MetricScale := 1

/-- A state with three nodes in `open_list`, with priorities 7, 4 and 9. -/
def frontierState : State Int where
  nodes := fun i => match i with
    | 1 => { visited := true, parent := some 0, g_value := 3, h_value := 4 }
    | 2 => { visited := true, parent := some 0, g_value := 1, h_value := 3 }
    | 3 => { visited := true, parent := some 0, g_value := 4, h_value := 5 }
    | _ => { visited := false, parent := none, g_value := 0, h_value := 0 }
  open_list := [1, 2, 3]
  distance := 0
  path := []

/-- A second sort procedure meeting the contract of `std::sort`: insertion sort of
the reversed input (equal keys come out in the opposite order). -/
def reverseStdSort : StdSort where
  sort comp l := l.reverse.insertionSort (fun a b => comp b a = false)
  perm comp l := (List.perm_insertionSort _ l.reverse).trans (List.reverse_perm l)
  sorted := by
    intro comp l htot htrans
    haveI : IsTotal Nat (fun a b => comp b a = false) := ⟨htot⟩
    haveI : IsTrans Nat (fun a b => comp b a = false) := ⟨htrans⟩
    exact List.sorted_insertionSort (fun a b => comp b a = false) l.reverse

/-- Coordinates of the nodes of `tieModel`. -/
def tiePos : Nat → Int × Int
  | 0 => (0, 0)
  | 1 => (12, 16)
  | 2 => (12, -16)
  | 3 => (12, 5)
  | _ => (24, 0)

/-- The straight-line distances between the points `tiePos`, for `i < j`. -/
def tieTable : Nat → Nat → Int
  | 0, 1 => 20
  | 0, 2 => 20
  | 0, 3 => 13
  | 0, 4 => 24
  | 1, 2 => 32
  | 1, 3 => 11
  | 1, 4 => 20
  | 2, 3 => 21
  | 2, 4 => 20
  | 3, 4 => 13
  | _, _ => 0

/-- A diamond 0 - 1 - 3, 0 - 2 - 3, followed by the edge 3 - 4, on the points
`tiePos` with their straight-line distances. Nodes 1 and 2 have the same
`g_value + h_value` when node 0 is expanded in a search from 0 to 4. -/
def tieModel : RouteModel Int where
  neighbors := fun i => match i with
    | 0 => [1, 2]
    | 1 => [0, 3]
    | 2 => [0, 3]
    | 3 => [1, 2, 4]
    | 4 => [3]
    | _ => []
  distance := fun i j => if i ≤ j then tieTable i j else tieTable j i
  MetricScale := 1

/-- Positions of the nodes of `diamondModel` on a line. -/
def diamondPos : Nat → Int
  | 0 => 2
  | 1 => 1
  | 2 => 3
  | 3 => 4
  | _ => 0

/-- A diamond 0 - 1 - 3, 0 - 2 - 3, followed by the edge 3 - 4, with the nodes at
the positions `diamondPos` of a line and the distance between two nodes the
distance of their positions. The route 0, 2, 3, 4 has length 6, the route
0, 1, 3, 4 has length 8. -/
def diamondModel : RouteModel Int where
  neighbors := fun i => match i with
    | 0 => [1, 2]
    | 1 => [0, 3]
    | 2 => [0, 3]
    | 3 => [1, 2, 4]
    | 4 => [3]
    | _ => []
  distance := fun i j => |diamondPos i - diamondPos j|
  MetricScale := 2

/-- The length of the shortest route from each node of `diamondModel` to node 4. -/
def diamondToGo : Nat → Int
  | 0 => 6
  | 1 => 7
  | 2 => 5
  | 3 => 4
  | _ => 0

/-- A graph in which node 0 is in its own neighbour list: 0 - 0, 0 - 1. -/
def selfLoopModel : RouteModel Int where
  neighbors := fun i => match i with
    | 0 => [0, 1]
    | 1 => [0]
    | _ => []
  distance := fun i j => |(i : Int) - (j : Int)|
  MetricScale := 1

/-- The state at the head of the loop of `AStarSearch` on the line graph, searched
from node 0 to node 2, after the first iteration (node 0 extracted and
expanded). -/
def lineStep1 : State Int :=
  AddNeighbors lineModel 2 0 { AStarSearch.init 0 freshState with open_list := [] }

/-- The state that the search of the line graph from node 0 to node 2 leaves. -/
def lineFound : State Int :=
  match AStarSearch.run insertionStdSort lineModel 0 2 3 freshState with
  | .ok r => r.2
  | .error _ => freshState

section Lemmas

variable {α : Type} [LinearOrderedCommRing α]

theorem Compare_eq_false_iff (a b : Node α) : Compare a b = false ↔ fValue a ≤ fValue b := by
  simp [Compare, fValue]

/-- What `NextNode` does on a non-empty `open_list`. -/
theorem NextNode_spec (srt : StdSort) (s : State α) (h : s.open_list ≠ []) :
    ∃ n rest, NextNode srt s = .ok (n, { s with open_list := rest }) ∧
      n ∈ s.open_list ∧ rest.Perm (s.open_list.erase n) ∧
      ∀ x ∈ s.open_list, fValue (s.nodes n) ≤ fValue (s.nodes x) := by
  have hperm := srt.perm (fun a b => Compare (s.nodes a) (s.nodes b)) s.open_list
  have hsorted := srt.sorted (fun a b => Compare (s.nodes a) (s.nodes b)) s.open_list
    (by
      intro a b
      simp only [Compare_eq_false_iff]
      exact le_total _ _)
    (by
      intro a b c
      simp only [Compare_eq_false_iff]
      intro h1 h2
      exact le_trans h2 h1)
  have hdef : NextNode srt s =
      match (srt.sort (fun a b => Compare (s.nodes a) (s.nodes b)) s.open_list).getLast? with
      | none => .error .emptyOpenList
      | some next_node => .ok (next_node, { s with open_list :=
          (srt.sort (fun a b => Compare (s.nodes a) (s.nodes b)) s.open_list).dropLast }) := rfl
  generalize srt.sort (fun a b => Compare (s.nodes a) (s.nodes b)) s.open_list = l at hperm hsorted hdef
  have hne : l ≠ [] := by
    intro h0
    rw [h0] at hperm
    exact h (List.Perm.eq_nil hperm.symm)
  have hsplit := List.dropLast_append_getLast hne
  refine ⟨l.getLast hne, l.dropLast, ?_, ?_, ?_, ?_⟩
  · rw [hdef, List.getLast?_eq_getLast _ hne]
  · exact hperm.subset (List.getLast_mem hne)
  · have h1 : (l.getLast hne :: l.dropLast).Perm s.open_list := by
      refine List.Perm.trans ?_ hperm
      conv_rhs => rw [← hsplit]
      exact (List.perm_append_singleton _ _).symm
    have h2 := h1.erase (l.getLast hne)
    simpa using h2
  · intro x hx
    have hx1 : x ∈ l := hperm.symm.subset hx
    rw [← hsplit, List.mem_append] at hx1
    rcases hx1 with hx1 | hx1
    · rw [← hsplit, List.pairwise_append] at hsorted
      have := hsorted.2.2 x hx1 _ (List.mem_singleton_self _)
      exact (Compare_eq_false_iff _ _).1 this
    · rw [List.mem_singleton] at hx1
      rw [hx1]


theorem unvisitedCount_update (N : Nat) (nodes : Nat → Node α) (i : Nat) (x : Node α)
    (hi : i < N) (hv : (nodes i).visited = false) (hx : x.visited = true) :
    unvisitedCount N (Function.update nodes i x) + 1 = unvisitedCount N nodes := by
  unfold unvisitedCount
  have hmem : i ∈ (Finset.range N).filter (fun j => (nodes j).visited = false) := by
    simp [hi, hv]
  have heq : (Finset.range N).filter (fun j => ((Function.update nodes i x) j).visited = false)
      = ((Finset.range N).filter (fun j => (nodes j).visited = false)).erase i := by
    ext j
    by_cases hj : j = i
    · subst hj
      simp [hx]
    · simp [Function.update_noteq hj, hj]
  rw [heq, Finset.card_erase_of_mem hmem]
  have hpos : 0 < ((Finset.range N).filter (fun j => (nodes j).visited = false)).card :=
    Finset.card_pos.2 ⟨i, hmem⟩
  omega

theorem Expands.refl (m : RouteModel α) (N n : Nat) (s : State α) : Expands m N n s s where
  path_eq := rfl
  distance_eq := rfl
  keep := fun _ _ => rfl
  grow := ⟨[], by simp, by simp, by simp, fun v hv => Or.inl hv⟩

theorem Expands.trans {m : RouteModel α} {N n : Nat} {s t u : State α}
    (h1 : Expands m N n s t) (h2 : Expands m N n t u) : Expands m N n s u := by
  obtain ⟨new1, ho1, hc1, hn1, hv1⟩ := h1.grow
  obtain ⟨new2, ho2, hc2, hn2, hv2⟩ := h2.grow
  have hmono : ∀ v, (s.nodes v).visited = true → (t.nodes v).visited = true := by
    intro v hv
    rw [h1.keep v hv]
    exact hv
  refine ⟨h2.path_eq.trans h1.path_eq, h2.distance_eq.trans h1.distance_eq, ?_, ?_⟩
  · intro v hv
    rw [h2.keep v (hmono v hv), h1.keep v hv]
  · refine ⟨new1 ++ new2, ?_, ?_, ?_, ?_⟩
    · rw [ho2, ho1, List.append_assoc]
    · rw [List.length_append]
      omega
    · intro w hw
      rcases List.mem_append.1 hw with hw | hw
      · obtain ⟨a, b, c, d, e⟩ := hn1 w hw
        rw [h2.keep w b]
        exact ⟨a, b, c, d, e⟩
      · obtain ⟨a, b, c, d, e⟩ := hn2 w hw
        refine ⟨?_, b, c, d, e⟩
        cases hsv : (s.nodes w).visited
        · rfl
        · rw [hmono w hsv] at a
          exact absurd a (by simp)
    · intro v hv
      rcases hv2 v hv with hv | hv
      · rcases hv1 v hv with hv | hv
        · exact Or.inl hv
        · exact Or.inr (List.mem_append_left _ hv)
      · exact Or.inr (List.mem_append_right _ hv)

theorem visit_expands (m : RouteModel α) (N end_node n : Nat) (s : State α) (w : Nat)
    (hw : w ∈ m.neighbors n) (hN : w < N) :
    Expands m N n s (AddNeighbors.visit m end_node n s w) := by
  unfold AddNeighbors.visit
  by_cases hv : (s.nodes w).visited = true
  · rw [if_pos hv]
    exact Expands.refl m N n s
  · rw [if_neg hv]
    have hv0 : (s.nodes w).visited = false := by simpa using hv
    refine ⟨rfl, rfl, ?_, ?_⟩
    · intro v hvv
      have hne : v ≠ w := by
        rintro rfl
        rw [hvv] at hv0
        exact absurd hv0 (by simp)
      simp [Function.update_noteq hne]
    · refine ⟨[w], rfl, ?_, ?_, ?_⟩
      · simpa [Nat.add_comm] using unvisitedCount_update N s.nodes w _ hN hv0 rfl
      · intro x hx
        rw [List.mem_singleton] at hx
        subst hx
        simp [hv0, hw, hN]
      · intro v hvv
        by_cases hne : v = w
        · exact Or.inr (by simp [hne])
        · left
          simpa [Function.update_noteq hne] using hvv

theorem foldl_visit_expands (m : RouteModel α) (N end_node n : Nat) (L : List Nat)
    (hL : ∀ w ∈ L, w ∈ m.neighbors n ∧ w < N) (s : State α) :
    Expands m N n s (L.foldl (AddNeighbors.visit m end_node n) s) := by
  induction L generalizing s with
  | nil => exact Expands.refl m N n s
  | cons w L ih =>
    rw [List.foldl_cons]
    exact (visit_expands m N end_node n s w (hL w (List.mem_cons_self _ _)).1
      (hL w (List.mem_cons_self _ _)).2).trans
      (ih (fun x hx => hL x (List.mem_cons_of_mem _ hx)) _)

theorem AddNeighbors_expands (m : RouteModel α) (N end_node n : Nat) (s : State α)
    (hN : ∀ w ∈ m.neighbors n, w < N) :
    Expands m N n s (AddNeighbors m end_node n s) :=
  foldl_visit_expands m N end_node n _ (fun w hw => ⟨hw, hN w hw⟩) s

theorem visit_visited_mono (m : RouteModel α) (end_node n : Nat) (s : State α) (w v : Nat)
    (hv : (s.nodes v).visited = true) :
    ((AddNeighbors.visit m end_node n s w).nodes v).visited = true := by
  unfold AddNeighbors.visit
  by_cases hw : (s.nodes w).visited = true
  · rw [if_pos hw]
    exact hv
  · rw [if_neg hw]
    have hne : v ≠ w := by
      rintro rfl
      exact hw hv
    simpa [Function.update_noteq hne] using hv

theorem foldl_visit_visited_mono (m : RouteModel α) (end_node n : Nat) (L : List Nat)
    (s : State α) (v : Nat) (hv : (s.nodes v).visited = true) :
    ((L.foldl (AddNeighbors.visit m end_node n) s).nodes v).visited = true := by
  induction L generalizing s with
  | nil => exact hv
  | cons w L ih =>
    rw [List.foldl_cons]
    exact ih _ (visit_visited_mono m end_node n s w v hv)

theorem visit_visited_self (m : RouteModel α) (end_node n : Nat) (s : State α) (w : Nat) :
    ((AddNeighbors.visit m end_node n s w).nodes w).visited = true := by
  unfold AddNeighbors.visit
  by_cases hw : (s.nodes w).visited = true
  · rw [if_pos hw]
    exact hw
  · rw [if_neg hw]
    simp

/-- After `AddNeighbors(n)` every neighbour of `n` is visited. -/
theorem AddNeighbors_visited (m : RouteModel α) (end_node n : Nat) (s : State α) :
    ∀ w ∈ m.neighbors n, ((AddNeighbors m end_node n s).nodes w).visited = true := by
  unfold AddNeighbors
  generalize m.neighbors n = L
  induction L generalizing s with
  | nil => simp
  | cons x L ih =>
    intro w hw
    rw [List.foldl_cons]
    rcases List.mem_cons.1 hw with rfl | hw
    · exact foldl_visit_visited_mono m end_node n L _ w (visit_visited_self m end_node n s w)
    · exact ih _ w hw

/-! ### Parent chains -/

theorem ParentChain.head {m : RouteModel α} {start_node : Nat} {nodes : Nat → Node α}
    {v : Nat} {l : List Nat} (h : ParentChain m start_node nodes v l) :
    ∃ r, l = v :: r := by
  cases h with
  | base => exact ⟨[], rfl⟩
  | step _ _ _ _ _ _ => exact ⟨_, rfl⟩

theorem ParentChain.visited {m : RouteModel α} {start_node : Nat} {nodes : Nat → Node α}
    {v : Nat} {l : List Nat} (h : ParentChain m start_node nodes v l)
    (hs : (nodes start_node).visited = true) : ∀ x ∈ l, (nodes x).visited = true := by
  induction h with
  | base =>
    intro x hx
    rw [List.mem_singleton] at hx
    rw [hx]
    exact hs
  | step _ hv _ _ _ _ ih =>
    intro x hx
    rcases List.mem_cons.1 hx with rfl | hx
    · exact hv
    · exact ih x hx

theorem ParentChain.nodup {m : RouteModel α} {start_node : Nat} {nodes : Nat → Node α}
    {v : Nat} {l : List Nat} (h : ParentChain m start_node nodes v l) : l.Nodup := by
  induction h with
  | base => simp
  | step _ _ _ _ hnot _ ih => exact List.nodup_cons.2 ⟨hnot, ih⟩

theorem ParentChain.getLast {m : RouteModel α} {start_node : Nat} {nodes : Nat → Node α}
    {v : Nat} {l : List Nat} (h : ParentChain m start_node nodes v l) :
    l.getLast? = some start_node := by
  induction h with
  | base => rfl
  | step _ _ _ _ _ hc ih =>
    obtain ⟨r, rfl⟩ := hc.head
    rw [List.getLast?_cons_cons]
    exact ih

/-- A parent chain stays one when the fields of the visited nodes are kept. -/
theorem ParentChain.lift {m : RouteModel α} {start_node : Nat} {nodes nodes2 : Nat → Node α}
    {v : Nat} {l : List Nat} (h : ParentChain m start_node nodes v l)
    (hkeep : ∀ x, (nodes x).visited = true → nodes2 x = nodes x) :
    ParentChain m start_node nodes2 v l := by
  induction h with
  | base => exact ParentChain.base
  | step hne hv hp hn hnot _ ih =>
    refine ParentChain.step hne ?_ ?_ hn hnot ih
    · rw [hkeep _ hv]
      exact hv
    · rw [hkeep _ hv]
      exact hp

/-- Along a parent chain, read from `start_node`, each node is in the neighbour
list of the one before it. -/
theorem ParentChain.chain_reverse {m : RouteModel α} {start_node : Nat} {nodes : Nat → Node α}
    {v : Nat} {l : List Nat} (h : ParentChain m start_node nodes v l) :
    List.Chain' (fun p q => q ∈ m.neighbors p) l.reverse := by
  rw [List.chain'_reverse]
  induction h with
  | base => simp
  | step _ _ _ hn _ hc ih =>
    obtain ⟨r, rfl⟩ := hc.head
    exact List.chain'_cons.2 ⟨hn, ih⟩

theorem ParentChain.reachable {m : RouteModel α} {start_node : Nat} {nodes : Nat → Node α}
    {v : Nat} {l : List Nat} (h : ParentChain m start_node nodes v l) :
    Reachable m start_node v := by
  induction h with
  | base => exact Relation.ReflTransGen.refl
  | step _ _ _ hn _ _ ih => exact Relation.ReflTransGen.tail ih hn

theorem ParentChain.length_le {m : RouteModel α} {start_node : Nat} {nodes : Nat → Node α}
    {v : Nat} {l : List Nat} (h : ParentChain m start_node nodes v l) (N : Nat)
    (hs : (nodes start_node).visited = true)
    (hN : ∀ x, (nodes x).visited = true → x < N) : l.length ≤ N := by
  have hsub : l.toFinset ⊆ Finset.range N := by
    intro x hx
    rw [List.mem_toFinset] at hx
    exact Finset.mem_range.2 (hN x (h.visited hs x hx))
  have hcard := Finset.card_le_card hsub
  rw [List.toFinset_card_of_nodup h.nodup, Finset.card_range] at hcard
  exact hcard

/-! ### `ConstructFinalPath` on a parent chain -/

theorem walk_of_chain {m : RouteModel α} {start_node : Nat} {nodes : Nat → Node α}
    {v : Nat} {l : List Nat} (h : ParentChain m start_node nodes v l) :
    ∀ (fuel : Nat) (d : α) (acc : List (Snapshot α)), l.length ≤ fuel + 1 →
      ConstructFinalPath.walk m start_node nodes fuel v d acc =
        .ok (d + pathLength m.distance l,
             acc ++ l.dropLast.map (fun i => Snapshot.mk i (nodes i)), start_node) := by
  induction h with
  | base =>
    intro fuel d acc _
    unfold ConstructFinalPath.walk
    simp [pathLength]
  | step hne _ hp _ _ hc ih =>
    intro fuel d acc hlen
    obtain ⟨r, rfl⟩ := hc.head
    cases fuel with
    | zero => simp at hlen
    | succ f =>
      unfold ConstructFinalPath.walk
      rw [if_neg hne]
      simp only [hp]
      rw [ih f _ _ (by simpa using hlen)]
      simp [pathLength, add_assoc]

theorem ConstructFinalPath_of_chain {m : RouteModel α} {start_node : Nat} {s : State α}
    {v : Nat} {l : List Nat} (h : ParentChain m start_node s.nodes v l)
    (fuel : Nat) (hlen : l.length ≤ fuel + 1) :
    ConstructFinalPath m start_node fuel s v =
      .ok (l.reverse.map (fun i => Snapshot.mk i (s.nodes i)),
           { s with distance := pathLength m.distance l * m.MetricScale }) := by
  unfold ConstructFinalPath
  rw [walk_of_chain h fuel 0 [] hlen]
  simp only [zero_add, List.nil_append]
  have hl : l = l.dropLast ++ [start_node] := by
    have hne : l ≠ [] := by
      obtain ⟨r, rfl⟩ := h.head
      simp
    have h1 := List.dropLast_append_getLast hne
    have h2 := h.getLast
    rw [List.getLast?_eq_getLast _ hne] at h2
    rw [Option.some.inj h2] at h1
    exact h1.symm
  congr 2
  conv_rhs => rw [hl]
  simp

/-! ### The loop of `AStarSearch` -/

/-- The invariant holds when the loop is first reached from a fresh state. -/
theorem Inv_init (m : RouteModel α) (N start_node end_node : Nat) (s : State α)
    (hfresh : Fresh s) (hstart : start_node < N) :
    Inv m N start_node end_node (AStarSearch.init start_node s) := by
  have hvis : ∀ v, ((AStarSearch.init start_node s).nodes v).visited = true → v = start_node := by
    intro v hv
    by_contra hne
    simp [AStarSearch.init, Function.update_noteq hne, hfresh.2 v] at hv
  have hopen : (AStarSearch.init start_node s).open_list = [start_node] := by
    simp [AStarSearch.init, hfresh.1]
  refine ⟨by simp [AStarSearch.init], ?_, ?_, ?_, ?_, ?_⟩
  · intro v hv
    rw [hopen, List.mem_singleton] at hv
    subst hv
    simp [AStarSearch.init]
  · intro v hv
    rw [hvis v hv]
    exact hstart
  · intro v hv
    rw [hvis v hv]
    exact ⟨_, ParentChain.base⟩
  · intro v hv
    left
    rw [hvis v hv, hopen]
    exact List.mem_singleton_self _
  · intro _
    by_cases he : end_node = start_node
    · rw [hopen, he]
      exact List.mem_singleton_self _
    · rename_i hv
      exact absurd (hvis _ hv) he

theorem unvisitedCount_init (N start_node : Nat) (s : State α)
    (hfresh : Fresh s) (hstart : start_node < N) :
    (AStarSearch.init start_node s).open_list.length +
      unvisitedCount N (AStarSearch.init start_node s).nodes ≤ N := by
  have h1 := unvisitedCount_update N s.nodes start_node
    { s.nodes start_node with visited := true } hstart (hfresh.2 _) rfl
  have h2 : unvisitedCount N s.nodes ≤ N := by
    unfold unvisitedCount
    exact (Finset.card_filter_le _ _).trans (by simp)
  have hopen : (AStarSearch.init start_node s).open_list = [start_node] := by
    simp [AStarSearch.init, hfresh.1]
  have hnodes : (AStarSearch.init start_node s).nodes =
      Function.update s.nodes start_node { s.nodes start_node with visited := true } := rfl
  rw [hopen, hnodes, List.length_singleton]
  omega

/-- One iteration of the loop that does not extract `end_node` keeps the
invariant, and lowers `open_list.length + unvisitedCount` by one. -/
theorem Inv_step {m : RouteModel α} {N start_node end_node : Nat} (hwf : WellFormed m N)
    {s : State α} (hinv : Inv m N start_node end_node s) {n : Nat} {rest : List Nat}
    (hn : n ∈ s.open_list) (hrest : rest.Perm (s.open_list.erase n)) (hne : n ≠ end_node) :
    Inv m N start_node end_node (AddNeighbors m end_node n { s with open_list := rest }) ∧
    (AddNeighbors m end_node n { s with open_list := rest }).open_list.length +
      unvisitedCount N (AddNeighbors m end_node n { s with open_list := rest }).nodes + 1 =
      s.open_list.length + unvisitedCount N s.nodes := by
  have hnv : (s.nodes n).visited = true := hinv.open_visited n hn
  have hE := AddNeighbors_expands m N end_node n { s with open_list := rest }
    (hwf n (hinv.visited_lt n hnv))
  have hall := AddNeighbors_visited m end_node n { s with open_list := rest }
  generalize AddNeighbors m end_node n { s with open_list := rest } = t at hE hall
  obtain ⟨new, ho, hc, hnew, hvis⟩ := hE.grow
  have hkeep : ∀ v, (s.nodes v).visited = true → t.nodes v = s.nodes v := hE.keep
  have hmono : ∀ v, (s.nodes v).visited = true → (t.nodes v).visited = true := by
    intro v hv
    rw [hkeep v hv]
    exact hv
  have hrestmem : ∀ v, v ∈ s.open_list → v ≠ n → v ∈ rest := by
    intro v hv hvn
    exact hrest.symm.subset ((List.mem_erase_of_ne hvn).2 hv)
  simp only at ho hc hnew hvis
  refine ⟨⟨hmono _ hinv.start_visited, ?_, ?_, ?_, ?_, ?_⟩, ?_⟩
  · intro v hv
    rw [ho] at hv
    rcases List.mem_append.1 hv with hv | hv
    · exact hmono v (hinv.open_visited v (List.mem_of_mem_erase (hrest.subset hv)))
    · exact (hnew v hv).2.1
  · intro v hv
    rcases hvis v hv with hv | hv
    · exact hinv.visited_lt v hv
    · exact (hnew v hv).2.2.2.2
  · intro v hv
    rcases hvis v hv with hv | hv
    · obtain ⟨l, hl⟩ := hinv.chain v hv
      exact ⟨l, hl.lift hkeep⟩
    · obtain ⟨l, hl⟩ := hinv.chain n hnv
      obtain ⟨h1, h2, h3, h4, _⟩ := hnew v hv
      refine ⟨v :: l, ParentChain.step ?_ h2 h3 h4 ?_ (hl.lift hkeep)⟩
      · rintro rfl
        rw [hinv.start_visited] at h1
        exact absurd h1 (by simp)
      · intro hmem
        rw [hl.visited hinv.start_visited v hmem] at h1
        exact absurd h1 (by simp)
  · intro v hv
    rcases hvis v hv with hv | hv
    · rcases hinv.closed v hv with hc1 | hc1
      · by_cases hvn : v = n
        · right
          rw [hvn]
          exact hall
        · left
          rw [ho]
          exact List.mem_append_left _ (hrestmem v hc1 hvn)
      · right
        intro w hw
        exact hmono w (hc1 w hw)
    · left
      rw [ho]
      exact List.mem_append_right _ hv
  · intro hv
    rw [ho]
    rcases hvis _ hv with hv | hv
    · exact List.mem_append_left _ (hrestmem _ (hinv.end_pending hv) (Ne.symm hne))
    · exact List.mem_append_right _ hv
  · rw [ho, List.length_append, hrest.length_eq, List.length_erase_of_mem hn]
    have hpos : 0 < s.open_list.length := List.length_pos_of_mem hn
    omega

/-- Induction over the iterations of the loop of `AStarSearch`: a property `P`
of the states at the loop head that every expanding iteration keeps gives `Q`
for whatever the loop returns. -/
theorem AStarSearch.loop_induction (srt : StdSort) (m : RouteModel α)
    (start_node end_node pfuel : Nat) (P : State α → Prop) (Q : Exit × State α → Prop)
    (hex : ∀ s, P s → s.open_list = [] → Q (Exit.exhausted, s))
    (hfound : ∀ s rest, P s → end_node ∈ s.open_list → rest.Perm (s.open_list.erase end_node) →
      ∀ p s2, ConstructFinalPath m start_node pfuel { s with open_list := rest } end_node
          = .ok (p, s2) →
        Q (Exit.found, { s2 with path := p, open_list := [] }))
    (hstep : ∀ s n rest, P s → n ∈ s.open_list → rest.Perm (s.open_list.erase n) →
      (∀ x ∈ s.open_list, fValue (s.nodes n) ≤ fValue (s.nodes x)) → n ≠ end_node →
      P (AddNeighbors m end_node n { s with open_list := rest })) :
    ∀ (fuel : Nat) (s : State α) (r : Exit × State α), P s →
      AStarSearch.loop srt m start_node end_node pfuel fuel s = .ok r → Q r := by
  intro fuel
  induction fuel with
  | zero =>
    intro s r hP h
    unfold AStarSearch.loop at h
    by_cases he : s.open_list = []
    · simp only [he, List.isEmpty_nil, if_true, Except.ok.injEq] at h
      rw [← h]
      exact hex s hP he
    · have : s.open_list.isEmpty = false := by simpa using he
      simp [this] at h
  | succ fuel ih =>
    intro s r hP h
    unfold AStarSearch.loop at h
    by_cases he : s.open_list = []
    · simp only [he, List.isEmpty_nil, if_true, Except.ok.injEq] at h
      rw [← h]
      exact hex s hP he
    · have hemp : s.open_list.isEmpty = false := by simpa using he
      obtain ⟨n, rest, hN, hn, hrest, hmin⟩ := NextNode_spec srt s he
      simp only [hemp, hN] at h
      by_cases hne : n = end_node
      · subst hne
        simp only [if_true] at h
        cases hC : ConstructFinalPath m start_node pfuel { s with open_list := rest } n with
        | error e => simp [hC] at h
        | ok ps =>
          obtain ⟨p, s2⟩ := ps
          simp only [hC] at h
          simp at h
          rw [← h]
          exact hfound s rest hP hn hrest p s2 hC
      · simp [hne] at h
        exact ih _ r (hstep s n rest hP hn hrest hmin hne) h

/-- The loop of `AStarSearch` returns: on a graph with `N` nodes, fuel for
`open_list.length + unvisitedCount` iterations is enough. -/
theorem AStarSearch.loop_total (srt : StdSort) {m : RouteModel α} {N start_node end_node : Nat}
    (hwf : WellFormed m N) (pfuel : Nat) (hpfuel : N ≤ pfuel + 1) :
    ∀ (fuel : Nat) (s : State α), Inv m N start_node end_node s →
      s.open_list.length + unvisitedCount N s.nodes ≤ fuel →
      ∃ r, AStarSearch.loop srt m start_node end_node pfuel fuel s = .ok r := by
  intro fuel
  induction fuel with
  | zero =>
    intro s _ hle
    have he : s.open_list = [] := List.length_eq_zero.1 (by omega)
    unfold AStarSearch.loop
    simp [he]
  | succ fuel ih =>
    intro s hinv hle
    unfold AStarSearch.loop
    by_cases he : s.open_list = []
    · simp [he]
    · have hemp : s.open_list.isEmpty = false := by simpa using he
      obtain ⟨n, rest, hN, hn, hrest, _⟩ := NextNode_spec srt s he
      simp only [hemp, hN]
      by_cases hne : n = end_node
      · subst hne
        obtain ⟨l, hl⟩ := hinv.chain n (hinv.open_visited n hn)
        have hlen := hl.length_le N hinv.start_visited hinv.visited_lt
        have hl2 : ParentChain m start_node
            ({ s with open_list := rest } : State α).nodes n l := hl
        simp [ConstructFinalPath_of_chain hl2 pfuel (by omega)]
      · simp only [Bool.false_eq_true, if_false, if_neg hne]
        obtain ⟨hinv2, hcount⟩ := Inv_step hwf hinv hn hrest hne
        exact ih _ hinv2 (by omega)

/-! ### Path length -/

theorem pathLength_append_pair (d : Nat → Nat → α) (l : List Nat) (x y : Nat) :
    pathLength d (l ++ [x, y]) = pathLength d (l ++ [x]) + d x y := by
  induction l with
  | nil => simp [pathLength]
  | cons a l ih =>
    cases l with
    | nil => simp [pathLength]
    | cons b r =>
      have e1 : a :: b :: r ++ [x, y] = a :: b :: (r ++ [x, y]) := rfl
      have e2 : a :: b :: r ++ [x] = a :: b :: (r ++ [x]) := rfl
      have e3 : b :: r ++ [x, y] = b :: (r ++ [x, y]) := rfl
      have e4 : b :: r ++ [x] = b :: (r ++ [x]) := rfl
      rw [e3, e4] at ih
      rw [e1, e2, pathLength, pathLength, ih, add_assoc]

theorem pathLength_reverse (d : Nat → Nat → α) (l : List Nat) :
    pathLength d l.reverse = pathLength (fun p q => d q p) l := by
  induction l with
  | nil => simp [pathLength]
  | cons a l ih =>
    cases l with
    | nil => simp [pathLength]
    | cons b r =>
      have h1 : (a :: b :: r).reverse = r.reverse ++ [b, a] := by simp
      have h2 : (b :: r).reverse = r.reverse ++ [b] := by simp
      rw [h1, pathLength_append_pair, ← h2, ih]
      simp only [pathLength]
      rw [add_comm]

theorem pathIds_snapshots (nodes : Nat → Node α) (l : List Nat) :
    pathIds (l.map (fun i => Snapshot.mk i (nodes i))) = l := by
  simp [pathIds, List.map_map, Function.comp_def]

/-! ### What `AStarSearch` returns -/

/-- All nodes reachable from a visited node are visited once `open_list` is empty. -/
theorem Inv.reachable_visited {m : RouteModel α} {N start_node end_node : Nat} {s : State α}
    (hinv : Inv m N start_node end_node s) (hopen : s.open_list = []) {v : Nat}
    (hr : Reachable m start_node v) : (s.nodes v).visited = true := by
  induction hr with
  | refl => exact hinv.start_visited
  | tail _ hn ih =>
    rcases hinv.closed _ ih with h | h
    · rw [hopen] at h
      exact absurd h (List.not_mem_nil _)
    · exact h _ hn

/-- The result of `AStarSearch` from a fresh state on a graph with `N` nodes, with
fuel `N`: the search returns; through the `found` exit when `end_node` is
reachable, with the parent chain of `end_node` as path, and through the
`exhausted` exit otherwise, with `path` and `distance` untouched. -/
theorem AStarSearch.run_spec (srt : StdSort) (m : RouteModel α) (N start_node end_node : Nat)
    (fuel : Nat) (s : State α) (hwf : WellFormed m N) (hstart : start_node < N)
    (hfresh : Fresh s) (hfuel : N ≤ fuel) :
    ∃ r, AStarSearch.run srt m start_node end_node fuel s = .ok r ∧
      ((r.1 = Exit.found ∧ Reachable m start_node end_node ∧
          ∃ l, ParentChain m start_node r.2.nodes end_node l ∧
            r.2.path = l.reverse.map (fun i => Snapshot.mk i (r.2.nodes i)) ∧
            r.2.distance = pathLength m.distance l * m.MetricScale ∧ r.2.open_list = []) ∨
       (r.1 = Exit.exhausted ∧ ¬ Reachable m start_node end_node ∧
          r.2.path = s.path ∧ r.2.distance = s.distance ∧ r.2.open_list = [])) := by
  have hinit := Inv_init m N start_node end_node s hfresh hstart
  have hcount := unvisitedCount_init N start_node s hfresh hstart
  obtain ⟨r, hr⟩ := AStarSearch.loop_total srt hwf fuel (by omega) fuel
    (AStarSearch.init start_node s) hinit (by omega)
  refine ⟨r, hr, ?_⟩
  refine AStarSearch.loop_induction srt m start_node end_node fuel
    (fun u => Inv m N start_node end_node u ∧ u.path = s.path ∧ u.distance = s.distance)
    (fun r => (r.1 = Exit.found ∧ Reachable m start_node end_node ∧
          ∃ l, ParentChain m start_node r.2.nodes end_node l ∧
            r.2.path = l.reverse.map (fun i => Snapshot.mk i (r.2.nodes i)) ∧
            r.2.distance = pathLength m.distance l * m.MetricScale ∧ r.2.open_list = []) ∨
       (r.1 = Exit.exhausted ∧ ¬ Reachable m start_node end_node ∧
          r.2.path = s.path ∧ r.2.distance = s.distance ∧ r.2.open_list = []))
    ?_ ?_ ?_ fuel (AStarSearch.init start_node s) r ⟨hinit, rfl, rfl⟩ hr
  · rintro u ⟨hinv, hp, hd⟩ hopen
    right
    refine ⟨rfl, ?_, hp, hd, hopen⟩
    intro hreach
    have hv := hinv.reachable_visited hopen hreach
    have := hinv.end_pending hv
    rw [hopen] at this
    exact absurd this (List.not_mem_nil _)
  · rintro u rest ⟨hinv, _, _⟩ hn _ p s2 hC
    left
    obtain ⟨l, hl⟩ := hinv.chain end_node (hinv.open_visited _ hn)
    have hlen := hl.length_le N hinv.start_visited hinv.visited_lt
    have hl2 : ParentChain m start_node
        ({ u with open_list := rest } : State α).nodes end_node l := hl
    rw [ConstructFinalPath_of_chain hl2 fuel (by omega)] at hC
    simp only [Except.ok.injEq, Prod.mk.injEq] at hC
    obtain ⟨hp, hs2⟩ := hC
    subst hp hs2
    exact ⟨rfl, hl.reachable, l, hl, rfl, rfl, rfl⟩
  · rintro u n rest ⟨hinv, hp, hd⟩ hn hrest _ hne
    obtain ⟨hinv2, _⟩ := Inv_step hwf hinv hn hrest hne
    have hE := AddNeighbors_expands m N end_node n { u with open_list := rest }
      (hwf n (hinv.visited_lt n (hinv.open_visited n hn)))
    exact ⟨hinv2, hE.path_eq.trans hp, hE.distance_eq.trans hd⟩

/-! ### The concrete graphs -/

theorem freshState_fresh : Fresh freshState :=
  ⟨rfl, fun _ => rfl⟩

theorem lineModel_wf : WellFormed lineModel 3 := by
  intro i hi j hj
  interval_cases i <;> simp [lineModel] at hj <;> omega

theorem islandsModel_wf : WellFormed islandsModel 4 := by
  intro i hi j hj
  interval_cases i <;> simp [islandsModel] at hj <;> omega

theorem islandsModel_unreachable : ¬ Reachable islandsModel 0 2 := by
  have h : ∀ v, Reachable islandsModel 0 v → v < 2 := by
    intro v hv
    induction hv with
    | refl => decide
    | @tail p q _ hn ih =>
      interval_cases p <;> simp [islandsModel] at hn <;> omega
  intro hr
  exact absurd (h 2 hr) (by decide)

/-! ### Claims -/

/-- C1 (path validity). On a graph with `N` nodes, from a fresh state, the search
returns, and if it reaches `end_node` (exit `found`) the path stored in
`m_Model.path` is non-empty, starts with `start_node`, ends with `end_node`, and
each node of it is in the neighbour list of the node before it. -/
theorem C1_path_validity (srt : StdSort) (m : RouteModel α) (N start_node end_node : Nat)
    (fuel : Nat) (s : State α) (hwf : WellFormed m N) (hstart : start_node < N)
    (hfresh : Fresh s) (hfuel : N ≤ fuel) :
    ∃ r, AStarSearch.run srt m start_node end_node fuel s = .ok r ∧
      (r.1 = Exit.found →
        r.2.path ≠ [] ∧ (pathIds r.2.path).head? = some start_node ∧
        (pathIds r.2.path).getLast? = some end_node ∧
        List.Chain' (fun p q => q ∈ m.neighbors p) (pathIds r.2.path)) := by
  obtain ⟨r, hr, hcases⟩ :=
    AStarSearch.run_spec srt m N start_node end_node fuel s hwf hstart hfresh hfuel
  refine ⟨r, hr, fun hfound => ?_⟩
  rcases hcases with ⟨_, _, l, hl, hp, _, _⟩ | ⟨hex, _⟩
  · obtain ⟨t, rfl⟩ := hl.head
    rw [hp, pathIds_snapshots]
    refine ⟨by simp, ?_, ?_, hl.chain_reverse⟩
    · rw [List.head?_reverse]
      exact hl.getLast
    · rw [List.getLast?_reverse]
      rfl
  · rw [hfound] at hex
    exact absurd hex (by decide)

/-- Witness of C1 on the line graph 0 - 1 - 2, searched from 0 to 2: the path
found is 0, 1, 2. -/
theorem C1_path_validity_witness :
    (∃ r, AStarSearch.run insertionStdSort lineModel 0 2 3 freshState = .ok r ∧
      (r.1 = Exit.found →
        r.2.path ≠ [] ∧ (pathIds r.2.path).head? = some 0 ∧
        (pathIds r.2.path).getLast? = some 2 ∧
        List.Chain' (fun p q => q ∈ lineModel.neighbors p) (pathIds r.2.path))) ∧
    (AStarSearch.run insertionStdSort lineModel 0 2 3 freshState).toOption.map
      (fun r => (r.1, pathIds r.2.path)) = some (Exit.found, [0, 1, 2]) :=
  ⟨C1_path_validity insertionStdSort lineModel 3 0 2 3 freshState lineModel_wf (by decide)
    freshState_fresh (le_refl 3), by decide⟩

/-- C2 (completeness). On a graph with `N` nodes, from a fresh state, the search
returns; it leaves through the `exhausted` exit if and only if `end_node` is not
reachable from `start_node` through the neighbour lists, and whenever `end_node`
is reachable it leaves through the `found` exit with a path written. -/
theorem C2_completeness (srt : StdSort) (m : RouteModel α) (N start_node end_node : Nat)
    (fuel : Nat) (s : State α) (hwf : WellFormed m N) (hstart : start_node < N)
    (hfresh : Fresh s) (hfuel : N ≤ fuel) :
    ∃ r, AStarSearch.run srt m start_node end_node fuel s = .ok r ∧
      (r.1 = Exit.exhausted ↔ ¬ Reachable m start_node end_node) ∧
      (Reachable m start_node end_node → r.1 = Exit.found ∧ r.2.path ≠ [] ∧
        (pathIds r.2.path).getLast? = some end_node) := by
  obtain ⟨r, hr, hcases⟩ :=
    AStarSearch.run_spec srt m N start_node end_node fuel s hwf hstart hfresh hfuel
  refine ⟨r, hr, ?_, ?_⟩
  · rcases hcases with ⟨hf, hreach, _⟩ | ⟨hex, hnot, _⟩
    · constructor
      · intro hex
        rw [hf] at hex
        exact absurd hex (by decide)
      · intro hnot
        exact absurd hreach hnot
    · exact ⟨fun _ => hnot, fun _ => hex⟩
  · intro hreach
    rcases hcases with ⟨hf, _, l, hl, hp, _, _⟩ | ⟨_, hnot, _⟩
    · obtain ⟨t, rfl⟩ := hl.head
      refine ⟨hf, ?_, ?_⟩
      · rw [hp]
        simp
      · rw [hp, pathIds_snapshots, List.getLast?_reverse]
        rfl
    · exact absurd hreach hnot

/-- Witness of C2 on the graph with the components 0 - 1 and 2 - 3, searched from
0 to 2: the search is exhausted. -/
theorem C2_completeness_witness :
    (∃ r, AStarSearch.run insertionStdSort islandsModel 0 2 4 freshState = .ok r ∧
      (r.1 = Exit.exhausted ↔ ¬ Reachable islandsModel 0 2) ∧
      (Reachable islandsModel 0 2 → r.1 = Exit.found ∧ r.2.path ≠ [] ∧
        (pathIds r.2.path).getLast? = some 2)) ∧
    (AStarSearch.run insertionStdSort islandsModel 0 2 4 freshState).toOption.map
      (fun r => r.1) = some Exit.exhausted :=
  ⟨C2_completeness insertionStdSort islandsModel 4 0 2 4 freshState islandsModel_wf (by decide)
    freshState_fresh (le_refl 4), by decide⟩

theorem AStarSearch_of_run {srt : StdSort} {m : RouteModel α} {start_node end_node fuel : Nat}
    {s : State α} {r : Exit × State α}
    (h : AStarSearch.run srt m start_node end_node fuel s = .ok r) :
    AStarSearch srt m start_node end_node fuel s = .ok r.2 := by
  unfold AStarSearch
  rw [h]

/-- C3, the claim as stated fails: on the graph with the components 0 - 1 and
2 - 3, where node 2 is not reachable from node 0, `AStarSearch` from 0 to 2
returns normally (no failure value), with `path`, `distance` and `open_list` as
they were before the call. -/
theorem C3_no_path_reporting_counterexample :
    ¬ Reachable islandsModel 0 2 ∧
    (AStarSearch insertionStdSort islandsModel 0 2 4 freshState).isOk = true ∧
    (AStarSearch insertionStdSort islandsModel 0 2 4 freshState).toOption.map
      (fun t => (pathIds t.path, t.distance, t.open_list)) = some ([], 0, []) :=
  ⟨islandsModel_unreachable, by decide, by decide⟩

/-- C3, amended: on a graph with `N` nodes, from a fresh state, `AStarSearch`
returns normally whether or not `end_node` is reachable. When `end_node` is not
reachable it leaves `m_Model.path` and `distance` as they were; so, when the path
was empty before the call, it is empty afterwards exactly when `end_node` is not
reachable. -/
theorem C3_no_path_reporting_amended (srt : StdSort) (m : RouteModel α)
    (N start_node end_node : Nat) (fuel : Nat) (s : State α) (hwf : WellFormed m N)
    (hstart : start_node < N) (hfresh : Fresh s) (hfuel : N ≤ fuel) :
    ∃ t, AStarSearch srt m start_node end_node fuel s = .ok t ∧
      (¬ Reachable m start_node end_node → t.path = s.path ∧ t.distance = s.distance) ∧
      (s.path = [] → (t.path = [] ↔ ¬ Reachable m start_node end_node)) := by
  obtain ⟨r, hr, hcases⟩ :=
    AStarSearch.run_spec srt m N start_node end_node fuel s hwf hstart hfresh hfuel
  refine ⟨r.2, AStarSearch_of_run hr, ?_, ?_⟩
  · intro hnot
    rcases hcases with ⟨_, hreach, _⟩ | ⟨_, _, hp, hd, _⟩
    · exact absurd hreach hnot
    · exact ⟨hp, hd⟩
  · intro hempty
    rcases hcases with ⟨_, hreach, l, hl, hp, _, _⟩ | ⟨_, hnot, hp, _, _⟩
    · obtain ⟨t, rfl⟩ := hl.head
      constructor
      · intro h
        rw [hp] at h
        simp at h
      · intro hnot
        exact absurd hreach hnot
    · exact ⟨fun _ => hnot, fun _ => hp.trans hempty⟩

/-- Witness of the amended C3 on the graph with the components 0 - 1 and 2 - 3. -/
theorem C3_no_path_reporting_amended_witness :
    ∃ t, AStarSearch insertionStdSort islandsModel 0 2 4 freshState = .ok t ∧
      (¬ Reachable islandsModel 0 2 → t.path = freshState.path ∧
        t.distance = freshState.distance) ∧
      (freshState.path = [] → (t.path = [] ↔ ¬ Reachable islandsModel 0 2)) :=
  C3_no_path_reporting_amended insertionStdSort islandsModel 4 0 2 4 freshState
    islandsModel_wf (by decide) freshState_fresh (le_refl 4)

/-- C4 (no path artifact on failure). On a graph with `N` nodes, from a fresh
state, when `end_node` is not reachable from `start_node` `AStarSearch` returns
with `m_Model.path` and `distance` exactly as they were before the call and with
`open_list` empty. -/
theorem C4_no_path_artifact (srt : StdSort) (m : RouteModel α)
    (N start_node end_node : Nat) (fuel : Nat) (s : State α) (hwf : WellFormed m N)
    (hstart : start_node < N) (hfresh : Fresh s) (hfuel : N ≤ fuel)
    (hnot : ¬ Reachable m start_node end_node) :
    ∃ t, AStarSearch srt m start_node end_node fuel s = .ok t ∧
      t.path = s.path ∧ t.distance = s.distance ∧ t.open_list = [] := by
  obtain ⟨r, hr, hcases⟩ :=
    AStarSearch.run_spec srt m N start_node end_node fuel s hwf hstart hfresh hfuel
  refine ⟨r.2, AStarSearch_of_run hr, ?_⟩
  rcases hcases with ⟨_, hreach, _⟩ | ⟨_, _, hp, hd, ho⟩
  · exact absurd hreach hnot
  · exact ⟨hp, hd, ho⟩

/-- Witness of C4 on the graph with the components 0 - 1 and 2 - 3, from 0 to 2. -/
theorem C4_no_path_artifact_witness :
    ¬ Reachable islandsModel 0 2 ∧
    ∃ t, AStarSearch insertionStdSort islandsModel 0 2 4 freshState = .ok t ∧
      t.path = freshState.path ∧ t.distance = freshState.distance ∧ t.open_list = [] :=
  ⟨islandsModel_unreachable,
   C4_no_path_artifact insertionStdSort islandsModel 4 0 2 4 freshState
    islandsModel_wf (by decide) freshState_fresh (le_refl 4) islandsModel_unreachable⟩

/-- C5 (distance scaling). On a graph with `N` nodes, from a fresh state, the
search returns, and if it reaches `end_node` the distance it sets is
`MetricScale()` times the sum, over the consecutive pairs `(p, q)` of the stored
path, of the distance from `q` to `p` (the order in which the code calls
`distance`); with a symmetric distance this is the sum of `distance(p, q)`. -/
theorem C5_distance_scaling (srt : StdSort) (m : RouteModel α) (N start_node end_node : Nat)
    (fuel : Nat) (s : State α) (hwf : WellFormed m N) (hstart : start_node < N)
    (hfresh : Fresh s) (hfuel : N ≤ fuel) :
    ∃ r, AStarSearch.run srt m start_node end_node fuel s = .ok r ∧
      (r.1 = Exit.found →
        r.2.distance =
          m.MetricScale * pathLength (fun p q => m.distance q p) (pathIds r.2.path) ∧
        ((∀ a b, m.distance a b = m.distance b a) →
          r.2.distance = m.MetricScale * pathLength m.distance (pathIds r.2.path))) := by
  obtain ⟨r, hr, hcases⟩ :=
    AStarSearch.run_spec srt m N start_node end_node fuel s hwf hstart hfresh hfuel
  refine ⟨r, hr, fun hfound => ?_⟩
  rcases hcases with ⟨_, _, l, hl, hp, hd, _⟩ | ⟨hex, _⟩
  · have h1 : r.2.distance =
        m.MetricScale * pathLength (fun p q => m.distance q p) (pathIds r.2.path) := by
      rw [hd, hp, pathIds_snapshots, pathLength_reverse, mul_comm]
    refine ⟨h1, fun hsym => ?_⟩
    have hfun : (fun p q => m.distance q p) = m.distance := by
      funext p q
      exact hsym q p
    rw [h1, hfun]
  · rw [hfound] at hex
    exact absurd hex (by decide)

/-- Witness of C5: the line graph with nodes at (0,0), (3,0), (3,4) and scale 2,
searched from the first node to the last, reports distance 14, twice the raw
length 7 of the path. The distances of `lineModel` are the straight-line
distances between the points. -/
theorem C5_distance_scaling_witness :
    (∃ r, AStarSearch.run insertionStdSort lineModel 0 2 3 freshState = .ok r ∧
      (r.1 = Exit.found →
        r.2.distance =
          lineModel.MetricScale *
            pathLength (fun p q => lineModel.distance q p) (pathIds r.2.path) ∧
        ((∀ a b, lineModel.distance a b = lineModel.distance b a) →
          r.2.distance =
            lineModel.MetricScale * pathLength lineModel.distance (pathIds r.2.path)))) ∧
    (AStarSearch.run insertionStdSort lineModel 0 2 3 freshState).toOption.map
      (fun r => (r.1, pathIds r.2.path, r.2.distance)) = some (Exit.found, [0, 1, 2], 14) ∧
    pathLength lineModel.distance [0, 1, 2] = 7 ∧
    (∀ i, i < 3 → ∀ j, j < 3 → 0 ≤ lineModel.distance i j ∧
      lineModel.distance i j * lineModel.distance i j =
        ((linePos i).1 - (linePos j).1) * ((linePos i).1 - (linePos j).1) +
        ((linePos i).2 - (linePos j).2) * ((linePos i).2 - (linePos j).2)) :=
  ⟨C5_distance_scaling insertionStdSort lineModel 3 0 2 3 freshState lineModel_wf (by decide)
    freshState_fresh (le_refl 3), by decide, by decide, by decide⟩

/-- C6 (degenerate case). When `start_node` and `end_node` are the same node `n`
and `open_list` is empty at the call, `AStarSearch` leaves through the `found`
exit with a path of exactly one element, the copy of `n`, and distance 0; the
only node field changed is `visited` of `n` (no node is expanded). -/
theorem C6_degenerate (srt : StdSort) (m : RouteModel α) (n fuel : Nat) (s : State α)
    (hopen : s.open_list = []) (hfuel : 0 < fuel) :
    AStarSearch.run srt m n n fuel s =
      .ok (Exit.found,
        { nodes := Function.update s.nodes n { s.nodes n with visited := true }
          open_list := []
          distance := 0
          path := [Snapshot.mk n { s.nodes n with visited := true }] }) := by
  obtain ⟨f, rfl⟩ : ∃ f, fuel = f + 1 := ⟨fuel - 1, by omega⟩
  have hsort : ∀ comp, srt.sort comp [n] = [n] := fun comp =>
    List.perm_singleton.1 (srt.perm comp [n])
  unfold AStarSearch.run AStarSearch.loop
  simp only [AStarSearch.init, hopen, List.nil_append, NextNode, hsort]
  unfold ConstructFinalPath ConstructFinalPath.walk
  simp

/-- Witness of C6 on the line graph, from node 1 to node 1. -/
theorem C6_degenerate_witness :
    AStarSearch.run insertionStdSort lineModel 1 1 3 freshState =
      .ok (Exit.found,
        { nodes := Function.update freshState.nodes 1
            { freshState.nodes 1 with visited := true }
          open_list := []
          distance := 0
          path := [Snapshot.mk 1 { freshState.nodes 1 with visited := true }] }) :=
  C6_degenerate insertionStdSort lineModel 1 3 freshState rfl (by decide)

/-- C7 (frontier selection). On a non-empty `open_list`, `NextNode` returns a node
`n` of `open_list` whose `g_value + h_value` is at most that of every node of
`open_list`; the new `open_list` is a permutation of the old one with one
occurrence of `n` removed, one element shorter; no node field, nor `distance` or
`path`, is changed. -/
theorem C7_frontier_selection (srt : StdSort) (s : State α) (h : s.open_list ≠ []) :
    ∃ n t, NextNode srt s = .ok (n, t) ∧ n ∈ s.open_list ∧
      (∀ x ∈ s.open_list,
        (s.nodes n).g_value + (s.nodes n).h_value ≤ (s.nodes x).g_value + (s.nodes x).h_value) ∧
      t.open_list.Perm (s.open_list.erase n) ∧
      t.open_list.length + 1 = s.open_list.length ∧
      t.nodes = s.nodes ∧ t.distance = s.distance ∧ t.path = s.path := by
  obtain ⟨n, rest, hN, hn, hrest, hmin⟩ := NextNode_spec srt s h
  refine ⟨n, _, hN, hn, hmin, hrest, ?_, rfl, rfl, rfl⟩
  show rest.length + 1 = s.open_list.length
  rw [hrest.length_eq, List.length_erase_of_mem hn]
  have hpos : 0 < s.open_list.length := List.length_pos_of_mem hn
  omega

/-- Witness of C7 on a state with `open_list = [1, 2, 3]` and priorities 7, 4, 9:
node 2 is returned and 1 and 3 stay. -/
theorem C7_frontier_selection_witness :
    (∃ n t, NextNode insertionStdSort frontierState = .ok (n, t) ∧ n ∈ frontierState.open_list ∧
      (∀ x ∈ frontierState.open_list,
        (frontierState.nodes n).g_value + (frontierState.nodes n).h_value ≤
          (frontierState.nodes x).g_value + (frontierState.nodes x).h_value) ∧
      t.open_list.Perm (frontierState.open_list.erase n) ∧
      t.open_list.length + 1 = frontierState.open_list.length ∧
      t.nodes = frontierState.nodes ∧ t.distance = frontierState.distance ∧
      t.path = frontierState.path) ∧
    (NextNode insertionStdSort frontierState).toOption.map
      (fun r => (r.1, r.2.open_list)) = some (2, [3, 1]) :=
  ⟨C7_frontier_selection insertionStdSort frontierState (by decide), by decide⟩

theorem tieModel_wf : WellFormed tieModel 5 := by
  intro i hi j hj
  interval_cases i <;> simp [tieModel] at hj <;> omega

theorem diamondModel_wf : WellFormed diamondModel 5 := by
  intro i hi j hj
  interval_cases i <;> simp [diamondModel] at hj <;> omega

/-- C8, the claim as stated fails: on the diamond `tieModel` (straight-line
distances between points of the plane), searched from node 0 to node 4 from the
same fresh state, two sort procedures that both meet the contract of `std::sort`
and differ only in the order of the tied nodes 1 and 2 give the distances 54 and
44. -/
theorem C8_determinism_counterexample :
    (AStarSearch.run insertionStdSort tieModel 0 4 5 freshState).toOption.map
      (fun r => (r.1, pathIds r.2.path, r.2.distance)) = some (Exit.found, [0, 2, 3, 4], 54) ∧
    (AStarSearch.run reverseStdSort tieModel 0 4 5 freshState).toOption.map
      (fun r => (r.1, pathIds r.2.path, r.2.distance)) = some (Exit.found, [0, 1, 3, 4], 44) ∧
    (∀ i, i < 5 → ∀ j, j < 5 → 0 ≤ tieModel.distance i j ∧
      tieModel.distance i j * tieModel.distance i j =
        ((tiePos i).1 - (tiePos j).1) * ((tiePos i).1 - (tiePos j).1) +
        ((tiePos i).2 - (tiePos j).2) * ((tiePos i).2 - (tiePos j).2)) :=
  ⟨by decide, by decide, by decide⟩

/-! ### Runs without ties do not depend on the sort procedure -/

theorem AStarSearch.loop_nil (srt : StdSort) (m : RouteModel α)
    (start_node end_node pfuel fuel : Nat) (s : State α) (h : s.open_list = []) :
    AStarSearch.loop srt m start_node end_node pfuel fuel s = .ok (Exit.exhausted, s) := by
  unfold AStarSearch.loop
  simp [h]

theorem AStarSearch.loop_zero (srt : StdSort) (m : RouteModel α)
    (start_node end_node pfuel : Nat) (s : State α) (h : s.open_list ≠ []) :
    AStarSearch.loop srt m start_node end_node pfuel 0 s = .error Err.outOfFuel := by
  unfold AStarSearch.loop
  simp [h]

theorem AStarSearch.loop_succ (srt : StdSort) (m : RouteModel α)
    (start_node end_node pfuel fuel : Nat) (s : State α) (h : s.open_list ≠ [])
    (n : Nat) (s1 : State α) (hN : NextNode srt s = .ok (n, s1)) :
    AStarSearch.loop srt m start_node end_node pfuel (fuel + 1) s =
      if n = end_node then
        match ConstructFinalPath m start_node pfuel s1 n with
        | .error e => .error e
        | .ok (path_found, s2) =>
          .ok (Exit.found, { s2 with path := path_found, open_list := [] })
      else
        AStarSearch.loop srt m start_node end_node pfuel fuel
          (AddNeighbors m end_node n s1) := by
  conv_lhs => unfold AStarSearch.loop
  simp [h, hN]

/-- When one node of `open_list` has a priority strictly below all others,
`NextNode` returns it, whatever the sort procedure. -/
theorem NextNode_strict_min (srt : StdSort) (s : State α) (n : Nat) (hn : n ∈ s.open_list)
    (hmin : ∀ x ∈ s.open_list, x ≠ n → fValue (s.nodes n) < fValue (s.nodes x)) :
    ∃ rest, NextNode srt s = .ok (n, { s with open_list := rest }) ∧
      rest.Perm (s.open_list.erase n) := by
  obtain ⟨k, rest, hN, hk, hrest, hle⟩ := NextNode_spec srt s (List.ne_nil_of_mem hn)
  have hkn : k = n := by
    by_contra hne
    exact absurd (hle n hn) (not_le.2 (hmin k hk hne))
  subst hkn
  exact ⟨rest, hN, hrest⟩

theorem visit_sameUpToOrder (m : RouteModel α) (end_node n w : Nat) {s t : State α}
    (h : SameUpToOrder s t) :
    SameUpToOrder (AddNeighbors.visit m end_node n s w) (AddNeighbors.visit m end_node n t w) := by
  obtain ⟨hn, hd, hp, ho⟩ := h
  unfold AddNeighbors.visit
  rw [hn]
  by_cases hv : (s.nodes w).visited = true
  · simp only [hv, if_true]
    exact ⟨hn, hd, hp, ho⟩
  · simp only [hv, Bool.false_eq_true, if_false]
    exact ⟨rfl, hd, hp, ho.append_right _⟩

theorem AddNeighbors_sameUpToOrder (m : RouteModel α) (end_node n : Nat) {s t : State α}
    (h : SameUpToOrder s t) :
    SameUpToOrder (AddNeighbors m end_node n s) (AddNeighbors m end_node n t) := by
  unfold AddNeighbors
  generalize m.neighbors n = L
  induction L generalizing s t with
  | nil => exact h
  | cons w L ih =>
    rw [List.foldl_cons, List.foldl_cons]
    exact ih (visit_sameUpToOrder m end_node n w h)

theorem found_branch_congr (m : RouteModel α) (start_node pfuel v : Nat) (s : State α)
    (l1 l2 : List Nat) :
    (match ConstructFinalPath m start_node pfuel { s with open_list := l1 } v with
      | .error e => (.error e : Except Err (Exit × State α))
      | .ok (path_found, s2) =>
        .ok (Exit.found, { s2 with path := path_found, open_list := [] })) =
    (match ConstructFinalPath m start_node pfuel { s with open_list := l2 } v with
      | .error e => .error e
      | .ok (path_found, s2) =>
        .ok (Exit.found, { s2 with path := path_found, open_list := [] })) := by
  unfold ConstructFinalPath
  simp only
  cases ConstructFinalPath.walk m start_node s.nodes pfuel v 0 [] with
  | error e => rfl
  | ok r => rfl

theorem SameUpToOrder.eq_with {s t : State α} (h : SameUpToOrder s t) :
    t = { s with open_list := t.open_list } := by
  obtain ⟨hn, hd, hp, _⟩ := h
  cases t
  cases s
  simp only at hn hd hp
  subst hn hd hp
  rfl

/-- The loop of `AStarSearch` gives the same result for any two sort procedures,
from states that differ at most in the order of `open_list`, when the run has
no ties. -/
theorem AStarSearch.loop_tieFree (srt1 srt2 : StdSort) (m : RouteModel α)
    (start_node end_node pfuel : Nat) {s : State α} (h : TieFreeRun m end_node s) :
    ∀ (fuel : Nat) (s1 s2 : State α), SameUpToOrder s s1 → SameUpToOrder s s2 →
      AStarSearch.loop srt1 m start_node end_node pfuel fuel s1 =
        AStarSearch.loop srt2 m start_node end_node pfuel fuel s2 := by
  induction h with
  | @exhausted s hnil =>
    intro fuel s1 s2 h1 h2
    have e1 : s1.open_list = [] := by
      have := h1.2.2.2
      rw [hnil] at this
      exact this.eq_nil
    have e2 : s2.open_list = [] := by
      have := h2.2.2.2
      rw [hnil] at this
      exact this.eq_nil
    rw [AStarSearch.loop_nil _ _ _ _ _ _ _ e1, AStarSearch.loop_nil _ _ _ _ _ _ _ e2,
      h1.eq_with, h2.eq_with, e1, e2]
  | @found s hmem hmin =>
    intro fuel s1 s2 h1 h2
    have m1 : end_node ∈ s1.open_list := h1.2.2.2.symm.subset hmem
    have m2 : end_node ∈ s2.open_list := h2.2.2.2.symm.subset hmem
    cases fuel with
    | zero =>
      rw [AStarSearch.loop_zero _ _ _ _ _ _ (List.ne_nil_of_mem m1),
        AStarSearch.loop_zero _ _ _ _ _ _ (List.ne_nil_of_mem m2)]
    | succ fuel =>
      obtain ⟨r1, hN1, _⟩ := NextNode_strict_min srt1 s1 end_node m1 (by
        intro x hx hne
        rw [h1.1]
        exact hmin x (h1.2.2.2.subset hx) hne)
      obtain ⟨r2, hN2, _⟩ := NextNode_strict_min srt2 s2 end_node m2 (by
        intro x hx hne
        rw [h2.1]
        exact hmin x (h2.2.2.2.subset hx) hne)
      rw [AStarSearch.loop_succ _ _ _ _ _ _ _ (List.ne_nil_of_mem m1) _ _ hN1,
        AStarSearch.loop_succ _ _ _ _ _ _ _ (List.ne_nil_of_mem m2) _ _ hN2]
      simp only [if_true]
      have e1 : ({ s1 with open_list := r1 } : State α) = { s with open_list := r1 } := by
        rw [h1.eq_with]
      have e2 : ({ s2 with open_list := r2 } : State α) = { s with open_list := r2 } := by
        rw [h2.eq_with]
      rw [e1, e2]
      exact found_branch_congr m start_node pfuel end_node s r1 r2
  | @step s n hmem hne hmin _ ih =>
    intro fuel s1 s2 h1 h2
    have m1 : n ∈ s1.open_list := h1.2.2.2.symm.subset hmem
    have m2 : n ∈ s2.open_list := h2.2.2.2.symm.subset hmem
    cases fuel with
    | zero =>
      rw [AStarSearch.loop_zero _ _ _ _ _ _ (List.ne_nil_of_mem m1),
        AStarSearch.loop_zero _ _ _ _ _ _ (List.ne_nil_of_mem m2)]
    | succ fuel =>
      obtain ⟨r1, hN1, hr1⟩ := NextNode_strict_min srt1 s1 n m1 (by
        intro x hx hne
        rw [h1.1]
        exact hmin x (h1.2.2.2.subset hx) hne)
      obtain ⟨r2, hN2, hr2⟩ := NextNode_strict_min srt2 s2 n m2 (by
        intro x hx hne
        rw [h2.1]
        exact hmin x (h2.2.2.2.subset hx) hne)
      rw [AStarSearch.loop_succ _ _ _ _ _ _ _ (List.ne_nil_of_mem m1) _ _ hN1,
        AStarSearch.loop_succ _ _ _ _ _ _ _ (List.ne_nil_of_mem m2) _ _ hN2]
      simp only [if_neg hne]
      refine ih fuel _ _ (AddNeighbors_sameUpToOrder m end_node n ?_)
        (AddNeighbors_sameUpToOrder m end_node n ?_)
      · exact ⟨h1.1, h1.2.1, h1.2.2.1, hr1.trans (h1.2.2.2.erase n)⟩
      · exact ⟨h2.1, h2.2.1, h2.2.2.1, hr2.trans (h2.2.2.2.erase n)⟩

theorem SameUpToOrder.of_self (s : State α) : SameUpToOrder s s :=
  ⟨rfl, rfl, rfl, List.Perm.refl _⟩

/-- `AStarSearch` gives the same result for any two sort procedures when the run
has no ties. -/
theorem AStarSearch.run_tieFree (srt1 srt2 : StdSort) (m : RouteModel α)
    (start_node end_node fuel : Nat) (s : State α)
    (h : TieFreeRun m end_node (AStarSearch.init start_node s)) :
    AStarSearch.run srt1 m start_node end_node fuel s =
      AStarSearch.run srt2 m start_node end_node fuel s :=
  AStarSearch.loop_tieFree srt1 srt2 m start_node end_node fuel h fuel _ _
    (SameUpToOrder.of_self _) (SameUpToOrder.of_self _)

theorem diamondModel_tieFree :
    TieFreeRun diamondModel 4 (AStarSearch.init 0 freshState) := by
  refine @TieFreeRun.step _ _ _ _ _ 0 (by decide) (by decide) (by decide) ?_
  refine @TieFreeRun.step _ _ _ _ _ 1 (by decide) (by decide) (by decide) ?_
  refine @TieFreeRun.step _ _ _ _ _ 2 (by decide) (by decide) (by decide) ?_
  refine @TieFreeRun.step _ _ _ _ _ 3 (by decide) (by decide) (by decide) ?_
  exact TieFreeRun.found (by decide) (by decide)

theorem diamondModel_metric (i j k : Nat) :
    diamondModel.distance i i = 0 ∧ 0 ≤ diamondModel.distance i j ∧
    diamondModel.distance i j = diamondModel.distance j i ∧
    diamondModel.distance i k ≤ diamondModel.distance i j + diamondModel.distance j k := by
  simp only [diamondModel]
  exact ⟨by simp, abs_nonneg _, abs_sub_comm _ _, abs_sub_le _ _ _⟩

/-- A lower bound on the length of every route: a potential that no edge lowers by
more than its length. -/
theorem pathLength_ge_potential (d : Nat → Nat → α) (nbrs : Nat → List Nat) (φ : Nat → α)
    (hφ : ∀ u v, v ∈ nbrs u → φ u ≤ d u v + φ v) :
    ∀ (l : List Nat) (u e : Nat), l.head? = some u → l.getLast? = some e →
      List.Chain' (fun p q => q ∈ nbrs p) l → φ u ≤ pathLength d l + φ e := by
  intro l
  induction l with
  | nil =>
    intro u e hu
    simp at hu
  | cons a l ih =>
    intro u e hu he hc
    cases l with
    | nil =>
      simp only [List.head?_cons, Option.some.injEq] at hu
      simp only [List.getLast?_singleton, Option.some.injEq] at he
      subst hu he
      simp [pathLength]
    | cons b r =>
      simp only [List.head?_cons, Option.some.injEq] at hu
      subst hu
      rw [List.getLast?_cons_cons] at he
      rw [List.chain'_cons] at hc
      have h1 := ih b e rfl he hc.2
      have h2 := hφ a b hc.1
      simp only [pathLength]
      calc φ a ≤ d a b + φ b := h2
        _ ≤ d a b + (pathLength d (b :: r) + φ e) := add_le_add_left h1 _
        _ = d a b + pathLength d (b :: r) + φ e := (add_assoc _ _ _).symm

theorem diamondToGo_edge (u v : Nat) (hv : v ∈ diamondModel.neighbors u) :
    diamondToGo u ≤ diamondModel.distance u v + diamondToGo v := by
  by_cases hu : u < 5
  · interval_cases u <;> simp [diamondModel] at hv <;>
      first
        | (subst hv; decide)
        | (rcases hv with rfl | rfl <;> decide)
        | (rcases hv with rfl | rfl | rfl <;> decide)
  · obtain ⟨k, rfl⟩ : ∃ k, u = k + 5 := ⟨u - 5, by omega⟩
    simp [diamondModel] at hv

/-- C8, amended: on a graph with `N` nodes, from the same fresh state, two runs of
`AStarSearch` with any two sort procedures both return and leave through the
same exit; and when the run has no ties (at every extraction one frontier node
has a `g_value + h_value` strictly below all others) the two runs give the same
result, distance and path included. -/
theorem C8_determinism_amended (srt1 srt2 : StdSort) (m : RouteModel α)
    (N start_node end_node : Nat) (fuel : Nat) (s : State α) (hwf : WellFormed m N)
    (hstart : start_node < N) (hfresh : Fresh s) (hfuel : N ≤ fuel) :
    ∃ r1 r2, AStarSearch.run srt1 m start_node end_node fuel s = .ok r1 ∧
      AStarSearch.run srt2 m start_node end_node fuel s = .ok r2 ∧
      r1.1 = r2.1 ∧
      (TieFreeRun m end_node (AStarSearch.init start_node s) → r1 = r2) := by
  obtain ⟨r1, hr1, hc1⟩ :=
    AStarSearch.run_spec srt1 m N start_node end_node fuel s hwf hstart hfresh hfuel
  obtain ⟨r2, hr2, hc2⟩ :=
    AStarSearch.run_spec srt2 m N start_node end_node fuel s hwf hstart hfresh hfuel
  refine ⟨r1, r2, hr1, hr2, ?_, ?_⟩
  · rcases hc1 with ⟨hf1, hreach, _⟩ | ⟨he1, hnot, _⟩
    · rcases hc2 with ⟨hf2, _⟩ | ⟨_, hnot, _⟩
      · rw [hf1, hf2]
      · exact absurd hreach hnot
    · rcases hc2 with ⟨_, hreach, _⟩ | ⟨he2, _⟩
      · exact absurd hreach hnot
      · rw [he1, he2]
  · intro htf
    have h := AStarSearch.run_tieFree srt1 srt2 m start_node end_node fuel s htf
    rw [hr1, hr2] at h
    exact Except.ok.inj h

/-- Witness of the amended C8 on the diamond `diamondModel`, whose run from node 0
to node 4 has no ties. -/
theorem C8_determinism_amended_witness :
    TieFreeRun diamondModel 4 (AStarSearch.init 0 freshState) ∧
    ∃ r1 r2, AStarSearch.run insertionStdSort diamondModel 0 4 5 freshState = .ok r1 ∧
      AStarSearch.run reverseStdSort diamondModel 0 4 5 freshState = .ok r2 ∧
      r1.1 = r2.1 ∧
      (TieFreeRun diamondModel 4 (AStarSearch.init 0 freshState) → r1 = r2) :=
  ⟨diamondModel_tieFree,
   C8_determinism_amended insertionStdSort reverseStdSort diamondModel 5 0 4 5 freshState
    diamondModel_wf (by decide) freshState_fresh (le_refl 5)⟩

/-- C9 (non-optimality under the visit-once policy). In `diamondModel` the
distance is a metric (the distance of points on a line), every edge has the
distance of its endpoints as weight and the heuristic is the distance to
`end_node`. Searched from node 0 to node 4, with any sort procedure, the search
reaches node 4 with the path 0, 1, 3, 4 and distance 16, while the route
0, 2, 3, 4 has length 6, the least length of any route from 0 to 4, and
`MetricScale` is 2: 16 > 2 * 6. Node 3 keeps parent 1 and `g_value` 4 although
it is a neighbour of node 2, through which its `g_value` would be 2. -/
theorem C9_non_optimal :
    (∀ i j k, diamondModel.distance i i = 0 ∧ 0 ≤ diamondModel.distance i j ∧
      diamondModel.distance i j = diamondModel.distance j i ∧
      diamondModel.distance i k ≤ diamondModel.distance i j + diamondModel.distance j k) ∧
    (∀ srt : StdSort,
      (AStarSearch.run srt diamondModel 0 4 5 freshState).toOption.map
        (fun r => (r.1, pathIds r.2.path, r.2.distance,
          (r.2.nodes 3).parent, (r.2.nodes 3).g_value,
          (r.2.nodes 2).g_value + diamondModel.distance 3 2)) =
        some (Exit.found, [0, 1, 3, 4], 16, some 1, 4, 2)) ∧
    3 ∈ diamondModel.neighbors 2 ∧
    List.Chain' (fun p q => q ∈ diamondModel.neighbors p) [0, 2, 3, 4] ∧
    pathLength diamondModel.distance [0, 2, 3, 4] = 6 ∧
    (∀ l : List Nat, l.head? = some 0 → l.getLast? = some 4 →
      List.Chain' (fun p q => q ∈ diamondModel.neighbors p) l →
      6 ≤ pathLength diamondModel.distance l) ∧
    (16 : Int) > diamondModel.MetricScale * 6 := by
  refine ⟨diamondModel_metric, ?_, by decide, by simp [diamondModel], by decide, ?_,
    by decide⟩
  · intro srt
    rw [AStarSearch.run_tieFree srt insertionStdSort diamondModel 0 4 5 freshState
      diamondModel_tieFree]
    decide
  · intro l h0 h4 hc
    have h := pathLength_ge_potential diamondModel.distance diamondModel.neighbors
      diamondToGo diamondToGo_edge l 0 4 h0 h4 hc
    simpa [diamondToGo] using h

/-- C10 (heuristic admissibility). `CalculateHValue(n)` is `distance(n, end_node)`;
when the distance of a node to itself is 0 and the distance satisfies the
triangle inequality, `CalculateHValue(n)` is at most the sum of the distances
along any sequence of nodes from `n` to `end_node`, so along any path of the
graph. -/
theorem C10_heuristic_admissible (m : RouteModel α) (end_node : Nat)
    (hzero : ∀ x, m.distance x x = 0)
    (htri : ∀ x y z, m.distance x z ≤ m.distance x y + m.distance y z)
    (n : Nat) (l : List Nat) (hhead : l.head? = some n)
    (hlast : l.getLast? = some end_node) :
    CalculateHValue m end_node n = m.distance n end_node ∧
    CalculateHValue m end_node n ≤ pathLength m.distance l := by
  refine ⟨rfl, ?_⟩
  unfold CalculateHValue
  induction l generalizing n with
  | nil => simp at hhead
  | cons a l ih =>
    cases l with
    | nil =>
      simp only [List.head?_cons, Option.some.injEq] at hhead
      simp only [List.getLast?_singleton, Option.some.injEq] at hlast
      subst hhead hlast
      simp [pathLength, hzero]
    | cons b r =>
      simp only [List.head?_cons, Option.some.injEq] at hhead
      subst hhead
      rw [List.getLast?_cons_cons] at hlast
      have h1 := ih b rfl hlast
      simp only [pathLength]
      exact (htri a b end_node).trans (add_le_add_left h1 _)

/-- Witness of C10 on `diamondModel`: the heuristic of node 0 for `end_node` 4 is 2,
the route 0, 2, 3, 4 has length 6. -/
theorem C10_heuristic_admissible_witness :
    (CalculateHValue diamondModel 4 0 = diamondModel.distance 0 4 ∧
      CalculateHValue diamondModel 4 0 ≤ pathLength diamondModel.distance [0, 2, 3, 4]) ∧
    CalculateHValue diamondModel 4 0 = 2 ∧
    pathLength diamondModel.distance [0, 2, 3, 4] = 6 :=
  ⟨C10_heuristic_admissible diamondModel 4 (fun x => (diamondModel_metric x x x).1)
    (fun x y z => (diamondModel_metric x y z).2.2.2) 0 [0, 2, 3, 4] rfl rfl,
   by decide, by decide⟩

/-! ### The exact effect of `AddNeighbors` -/

theorem keepFirst_filter (p : Nat → Bool) (l : List Nat) :
    keepFirst (l.filter p) = (keepFirst l).filter p := by
  induction l with
  | nil => rfl
  | cons w l ih =>
    by_cases hp : p w = true
    · rw [List.filter_cons_of_pos hp]
      simp only [keepFirst]
      rw [List.filter_cons_of_pos hp, ih, List.filter_filter, List.filter_filter]
      congr 1
      apply List.filter_congr
      intro x _
      exact Bool.and_comm _ _
    · rw [List.filter_cons_of_neg hp]
      simp only [keepFirst]
      rw [List.filter_cons_of_neg hp, ih, List.filter_filter]
      apply List.filter_congr
      intro x _
      by_cases hx : x = w
      · subst hx
        simp [hp]
      · simp [hx]

theorem mem_keepFirst (l : List Nat) (x : Nat) : x ∈ keepFirst l ↔ x ∈ l := by
  induction l with
  | nil => simp [keepFirst]
  | cons w l ih =>
    simp only [keepFirst, List.mem_cons, List.mem_filter, ih]
    by_cases hx : x = w
    · simp [hx]
    · simp [hx]

theorem nodup_keepFirst (l : List Nat) : (keepFirst l).Nodup := by
  induction l with
  | nil => simp [keepFirst]
  | cons w l ih =>
    simp only [keepFirst]
    refine List.nodup_cons.2 ⟨?_, ih.filter _⟩
    simp [List.mem_filter]

theorem keepFirst_sublist (l : List Nat) : (keepFirst l).Sublist l := by
  induction l with
  | nil => exact List.Sublist.refl _
  | cons w l ih =>
    simp only [keepFirst]
    exact ((List.filter_sublist _).trans ih).cons₂ w

theorem mem_newNeighbors (m : RouteModel α) (c : Nat) (s : State α) (x : Nat) :
    x ∈ newNeighbors m c s ↔ x ∈ m.neighbors c ∧ (s.nodes x).visited = false := by
  simp [newNeighbors, mem_keepFirst, List.mem_filter]

/-- The state after the loop of `AddNeighbors(c)` has run over a list `L` of
neighbours. -/
theorem foldl_visit_post (m : RouteModel α) (end_node c : Nat) (L : List Nat) (s : State α) :
    (L.foldl (AddNeighbors.visit m end_node c) s).open_list =
        s.open_list ++ keepFirst (L.filter (fun w => !(s.nodes w).visited)) ∧
    (L.foldl (AddNeighbors.visit m end_node c) s).path = s.path ∧
    (L.foldl (AddNeighbors.visit m end_node c) s).distance = s.distance ∧
    (∀ v, v ∈ L → (s.nodes v).visited = false →
      ((L.foldl (AddNeighbors.visit m end_node c) s).nodes v).visited = true ∧
      ((L.foldl (AddNeighbors.visit m end_node c) s).nodes v).parent = some c ∧
      ((L.foldl (AddNeighbors.visit m end_node c) s).nodes v).h_value =
        m.distance v end_node) ∧
    (∀ v, ¬ (v ∈ L ∧ (s.nodes v).visited = false) →
      (L.foldl (AddNeighbors.visit m end_node c) s).nodes v = s.nodes v) := by
  induction L generalizing s with
  | nil => simp [keepFirst]
  | cons w L ih =>
    rw [List.foldl_cons]
    by_cases hv : (s.nodes w).visited = true
    · have hs1 : AddNeighbors.visit m end_node c s w = s := by
        unfold AddNeighbors.visit
        rw [if_pos hv]
      rw [hs1]
      obtain ⟨h1, h2, h3, h4, h5⟩ := ih s
      refine ⟨?_, h2, h3, ?_, ?_⟩
      · rw [h1, List.filter_cons_of_neg (by simp [hv])]
      · intro v hvL hvu
        rcases List.mem_cons.1 hvL with rfl | hvL
        · rw [hv] at hvu
          exact absurd hvu (by simp)
        · exact h4 v hvL hvu
      · intro v hnot
        apply h5
        rintro ⟨hvL, hvu⟩
        exact hnot ⟨List.mem_cons_of_mem _ hvL, hvu⟩
    · have hv0 : (s.nodes w).visited = false := by simpa using hv
      have hnodes : (AddNeighbors.visit m end_node c s w).nodes =
          Function.update s.nodes w
            { visited := true
              parent := some c
              g_value := (s.nodes c).g_value + m.distance w c
              h_value := CalculateHValue m end_node w } := by
        unfold AddNeighbors.visit
        rw [if_neg hv]
      have hopen : (AddNeighbors.visit m end_node c s w).open_list = s.open_list ++ [w] := by
        unfold AddNeighbors.visit
        rw [if_neg hv]
      have hpath : (AddNeighbors.visit m end_node c s w).path = s.path := by
        unfold AddNeighbors.visit
        rw [if_neg hv]
      have hdist : (AddNeighbors.visit m end_node c s w).distance = s.distance := by
        unfold AddNeighbors.visit
        rw [if_neg hv]
      have hself : ((AddNeighbors.visit m end_node c s w).nodes w).visited = true := by
        rw [hnodes]
        simp
      have hother : ∀ v, v ≠ w → (AddNeighbors.visit m end_node c s w).nodes v = s.nodes v := by
        intro v hne
        rw [hnodes, Function.update_noteq hne]
      obtain ⟨h1, h2, h3, h4, h5⟩ := ih (AddNeighbors.visit m end_node c s w)
      refine ⟨?_, h2.trans hpath, h3.trans hdist, ?_, ?_⟩
      · rw [h1, hopen, List.filter_cons_of_pos (by simp [hv0])]
        simp only [keepFirst, List.append_assoc, List.singleton_append]
        congr 2
        rw [← keepFirst_filter, List.filter_filter]
        congr 1
        apply List.filter_congr
        intro x _
        by_cases hx : x = w
        · subst hx
          simp [hself]
        · simp [hother x hx, hx]
      · intro v hvL hvu
        by_cases hx : v = w
        · subst hx
          rw [h5 v (by
            rintro ⟨_, h⟩
            rw [hself] at h
            exact absurd h (by simp))]
          rw [hnodes]
          simp [CalculateHValue]
        · have hvL2 : v ∈ L := by
            rcases List.mem_cons.1 hvL with h | h
            · exact absurd h hx
            · exact h
          exact h4 v hvL2 (by rw [hother v hx]; exact hvu)
      · intro v hnot
        have hx : v ≠ w := by
          rintro rfl
          exact hnot ⟨List.mem_cons_self _ _, hv0⟩
        rw [h5 v (by
          rintro ⟨hvL, hvu⟩
          rw [hother v hx] at hvu
          exact hnot ⟨List.mem_cons_of_mem _ hvL, hvu⟩)]
        exact hother v hx

/-- The `g_value` of the nodes that the loop of `AddNeighbors(c)` visits, when `c`
itself is not changed to a different `g_value` (it is visited, or not its own
neighbour, or at distance 0 of itself). -/
theorem foldl_visit_g (m : RouteModel α) (end_node c : Nat) (L : List Nat) (s : State α)
    (hself : c ∈ L → (s.nodes c).visited = false → m.distance c c = 0) :
    ((L.foldl (AddNeighbors.visit m end_node c) s).nodes c).g_value = (s.nodes c).g_value ∧
    ∀ v, v ∈ L → (s.nodes v).visited = false →
      ((L.foldl (AddNeighbors.visit m end_node c) s).nodes v).g_value =
        (s.nodes c).g_value + m.distance v c := by
  induction L generalizing s with
  | nil => simp
  | cons w L ih =>
    rw [List.foldl_cons]
    by_cases hv : (s.nodes w).visited = true
    · have hs1 : AddNeighbors.visit m end_node c s w = s := by
        unfold AddNeighbors.visit
        rw [if_pos hv]
      rw [hs1]
      obtain ⟨h1, h2⟩ := ih s (by
        intro hc hcu
        exact hself (List.mem_cons_of_mem _ hc) hcu)
      refine ⟨h1, ?_⟩
      intro v hvL hvu
      rcases List.mem_cons.1 hvL with rfl | hvL
      · rw [hv] at hvu
        exact absurd hvu (by simp)
      · exact h2 v hvL hvu
    · have hv0 : (s.nodes w).visited = false := by simpa using hv
      have hnodes : (AddNeighbors.visit m end_node c s w).nodes =
          Function.update s.nodes w
            { visited := true
              parent := some c
              g_value := (s.nodes c).g_value + m.distance w c
              h_value := CalculateHValue m end_node w } := by
        unfold AddNeighbors.visit
        rw [if_neg hv]
      have hself1 : ((AddNeighbors.visit m end_node c s w).nodes w).visited = true := by
        rw [hnodes]
        simp
      have hother : ∀ v, v ≠ w → (AddNeighbors.visit m end_node c s w).nodes v = s.nodes v := by
        intro v hne
        rw [hnodes, Function.update_noteq hne]
      have hgc : ((AddNeighbors.visit m end_node c s w).nodes c).g_value =
          (s.nodes c).g_value := by
        by_cases hcw : c = w
        · subst hcw
          rw [hnodes]
          simp [hself (List.mem_cons_self _ _) hv0]
        · rw [hother c hcw]
      obtain ⟨h1, h2⟩ := ih (AddNeighbors.visit m end_node c s w) (by
        intro hc hcu
        have hcw : c ≠ w := by
          rintro rfl
          rw [hself1] at hcu
          exact absurd hcu (by simp)
        rw [hother c hcw] at hcu
        exact hself (List.mem_cons_of_mem _ hc) hcu)
      refine ⟨h1.trans hgc, ?_⟩
      intro v hvL hvu
      by_cases hx : v = w
      · subst hx
        have hkeep := (foldl_visit_post m end_node c L
          (AddNeighbors.visit m end_node c s v)).2.2.2.2 v (by
            rintro ⟨_, h⟩
            rw [hself1] at h
            exact absurd h (by simp))
        rw [hkeep, hnodes]
        simp
      · have hvL2 : v ∈ L := by
          rcases List.mem_cons.1 hvL with h | h
          · exact absurd h hx
          · exact h
        rw [h2 v hvL2 (by rw [hother v hx]; exact hvu), hgc]

theorem foldl_visit_id (m : RouteModel α) (end_node c : Nat) (L : List Nat) (s : State α)
    (h : ∀ w ∈ L, (s.nodes w).visited = true) :
    L.foldl (AddNeighbors.visit m end_node c) s = s := by
  induction L with
  | nil => rfl
  | cons w L ih =>
    rw [List.foldl_cons]
    have hs1 : AddNeighbors.visit m end_node c s w = s := by
      unfold AddNeighbors.visit
      rw [if_pos (h w (List.mem_cons_self _ _))]
    rw [hs1]
    exact ih (fun x hx => h x (List.mem_cons_of_mem _ hx))

/-- C12 (neighbour expansion postcondition). After `AddNeighbors(c)`, every
neighbour `n` of `c` that was not visited before the call is visited, has parent
`c`, `g_value` equal to the `g_value` of `c` (before and after the call) plus
`distance(n, c)`, and `h_value` equal to `distance(n, end_node)`; `open_list` is
the old `open_list` followed by those neighbours, each once, in the order of the
neighbour list; every neighbour visited before the call keeps all its fields and
is not inserted. The `g_value` part needs that `c` does not change its own
`g_value`: if `c` is an unvisited node of its own neighbour list, its distance to
itself is 0. -/
theorem C12_expansion_postcondition (m : RouteModel α) (end_node c : Nat) (s : State α)
    (hself : c ∈ m.neighbors c → (s.nodes c).visited = false → m.distance c c = 0) :
    (∀ n, n ∈ m.neighbors c → (s.nodes n).visited = false →
      ((AddNeighbors m end_node c s).nodes n).visited = true ∧
      ((AddNeighbors m end_node c s).nodes n).parent = some c ∧
      ((AddNeighbors m end_node c s).nodes n).g_value =
        (s.nodes c).g_value + m.distance n c ∧
      ((AddNeighbors m end_node c s).nodes n).g_value =
        ((AddNeighbors m end_node c s).nodes c).g_value + m.distance n c ∧
      ((AddNeighbors m end_node c s).nodes n).h_value = m.distance n end_node) ∧
    (AddNeighbors m end_node c s).open_list = s.open_list ++ newNeighbors m c s ∧
    (newNeighbors m c s).Nodup ∧
    (newNeighbors m c s).Sublist (m.neighbors c) ∧
    (∀ n, n ∈ newNeighbors m c s ↔ n ∈ m.neighbors c ∧ (s.nodes n).visited = false) ∧
    (∀ n, n ∈ m.neighbors c → (s.nodes n).visited = true →
      (AddNeighbors m end_node c s).nodes n = s.nodes n ∧ n ∉ newNeighbors m c s) := by
  obtain ⟨h1, _, _, h4, h5⟩ := foldl_visit_post m end_node c (m.neighbors c) s
  obtain ⟨g1, g2⟩ := foldl_visit_g m end_node c (m.neighbors c) s hself
  refine ⟨?_, h1, nodup_keepFirst _, ?_, mem_newNeighbors m c s, ?_⟩
  · intro n hn hu
    obtain ⟨a, b, d⟩ := h4 n hn hu
    refine ⟨a, b, g2 n hn hu, ?_, d⟩
    show ((List.foldl (AddNeighbors.visit m end_node c) s (m.neighbors c)).nodes n).g_value =
      ((List.foldl (AddNeighbors.visit m end_node c) s (m.neighbors c)).nodes c).g_value +
        m.distance n c
    rw [g1]
    exact g2 n hn hu
  · exact (keepFirst_sublist _).trans (List.filter_sublist _)
  · intro n hn hv
    refine ⟨h5 n ?_, ?_⟩
    · rintro ⟨_, hu⟩
      rw [hv] at hu
      exact absurd hu (by simp)
    · rw [mem_newNeighbors]
      rintro ⟨_, hu⟩
      rw [hv] at hu
      exact absurd hu (by simp)

/-- Witness of C12 on the line graph: `AddNeighbors(1)` from the state in which
only node 0 is visited inserts node 2 alone. -/
theorem C12_expansion_postcondition_witness :
    ((∀ n, n ∈ lineModel.neighbors 1 →
        ((AStarSearch.init 0 freshState).nodes n).visited = false →
      ((AddNeighbors lineModel 2 1 (AStarSearch.init 0 freshState)).nodes n).visited = true ∧
      ((AddNeighbors lineModel 2 1 (AStarSearch.init 0 freshState)).nodes n).parent = some 1 ∧
      ((AddNeighbors lineModel 2 1 (AStarSearch.init 0 freshState)).nodes n).g_value =
        ((AStarSearch.init 0 freshState).nodes 1).g_value + lineModel.distance n 1 ∧
      ((AddNeighbors lineModel 2 1 (AStarSearch.init 0 freshState)).nodes n).g_value =
        ((AddNeighbors lineModel 2 1 (AStarSearch.init 0 freshState)).nodes 1).g_value +
          lineModel.distance n 1 ∧
      ((AddNeighbors lineModel 2 1 (AStarSearch.init 0 freshState)).nodes n).h_value =
        lineModel.distance n 2) ∧
    (AddNeighbors lineModel 2 1 (AStarSearch.init 0 freshState)).open_list =
      (AStarSearch.init 0 freshState).open_list ++
        newNeighbors lineModel 1 (AStarSearch.init 0 freshState) ∧
    (newNeighbors lineModel 1 (AStarSearch.init 0 freshState)).Nodup ∧
    (newNeighbors lineModel 1 (AStarSearch.init 0 freshState)).Sublist (lineModel.neighbors 1) ∧
    (∀ n, n ∈ newNeighbors lineModel 1 (AStarSearch.init 0 freshState) ↔
      n ∈ lineModel.neighbors 1 ∧ ((AStarSearch.init 0 freshState).nodes n).visited = false) ∧
    (∀ n, n ∈ lineModel.neighbors 1 →
      ((AStarSearch.init 0 freshState).nodes n).visited = true →
      (AddNeighbors lineModel 2 1 (AStarSearch.init 0 freshState)).nodes n =
        (AStarSearch.init 0 freshState).nodes n ∧
      n ∉ newNeighbors lineModel 1 (AStarSearch.init 0 freshState))) ∧
    newNeighbors lineModel 1 (AStarSearch.init 0 freshState) = [2] ∧
    (AddNeighbors lineModel 2 1 (AStarSearch.init 0 freshState)).open_list = [0, 2] :=
  ⟨C12_expansion_postcondition lineModel 2 1 (AStarSearch.init 0 freshState)
    (fun h => absurd h (by decide)), by decide, by decide⟩

/-- C13, the claim as stated fails: in `selfLoopModel` node 0 is in its own
neighbour list, and `AddNeighbors(0)` from the fresh state changes the current
node 0: it becomes visited and its own parent. -/
theorem C13_frame_counterexample :
    0 ∈ selfLoopModel.neighbors 0 ∧
    (freshState.nodes 0).visited = false ∧ (freshState.nodes 0).parent = none ∧
    ((AddNeighbors selfLoopModel 1 0 freshState).nodes 0).visited = true ∧
    ((AddNeighbors selfLoopModel 1 0 freshState).nodes 0).parent = some 0 := by
  decide

/-- C13, amended: `AddNeighbors(c)` leaves every field of every node that is not
an unvisited neighbour of `c` unchanged; so it does not change the current node
`c` when `c` is visited (as it is whenever `AStarSearch` calls it) or is not in
its own neighbour list. -/
theorem C13_frame_amended (m : RouteModel α) (end_node c : Nat) (s : State α) :
    (∀ v, ¬ (v ∈ m.neighbors c ∧ (s.nodes v).visited = false) →
      (AddNeighbors m end_node c s).nodes v = s.nodes v) ∧
    ((s.nodes c).visited = true ∨ c ∉ m.neighbors c →
      (AddNeighbors m end_node c s).nodes c = s.nodes c) := by
  obtain ⟨_, _, _, _, h5⟩ := foldl_visit_post m end_node c (m.neighbors c) s
  refine ⟨h5, ?_⟩
  intro h
  apply h5
  rintro ⟨hc, hu⟩
  rcases h with h | h
  · rw [h] at hu
    exact absurd hu (by simp)
  · exact h hc

/-- C14 (idempotent neighbour discovery). A second call of `AddNeighbors(c)` right
after the first inserts nothing and changes nothing: the state after the second
call is the state after the first, and no neighbour is left to insert. -/
theorem C14_idempotent (m : RouteModel α) (end_node c : Nat) (s : State α) :
    AddNeighbors m end_node c (AddNeighbors m end_node c s) = AddNeighbors m end_node c s ∧
    newNeighbors m c (AddNeighbors m end_node c s) = [] := by
  have hall := AddNeighbors_visited m end_node c s
  constructor
  · exact foldl_visit_id m end_node c (m.neighbors c) _ hall
  · apply List.eq_nil_iff_forall_not_mem.2
    intro x hx
    rw [mem_newNeighbors] at hx
    rw [hall x hx.1] at hx
    exact absurd hx.2 (by simp)

/-! ### The states that the loop of `AStarSearch` reaches -/

theorem NextNode_ok {srt : StdSort} {s s1 : State α} {n : Nat}
    (h : NextNode srt s = .ok (n, s1)) (hne : s.open_list ≠ []) :
    n ∈ s.open_list ∧ s1.open_list.Perm (s.open_list.erase n) ∧
    s1 = { s with open_list := s1.open_list } ∧
    ∀ x ∈ s.open_list, fValue (s.nodes n) ≤ fValue (s.nodes x) := by
  obtain ⟨k, rest, hN, hk, hrest, hmin⟩ := NextNode_spec srt s hne
  rw [hN] at h
  simp only [Except.ok.injEq, Prod.mk.injEq] at h
  obtain ⟨rfl, rfl⟩ := h
  exact ⟨hk, hrest, rfl, hmin⟩

theorem ParentChain.unique {m : RouteModel α} {start_node : Nat} {nodes : Nat → Node α}
    {v : Nat} {l1 l2 : List Nat} (h1 : ParentChain m start_node nodes v l1)
    (h2 : ParentChain m start_node nodes v l2) : l1 = l2 := by
  induction h1 generalizing l2 with
  | base =>
    cases h2 with
    | base => rfl
    | step hne _ _ _ _ _ => exact absurd rfl hne
  | step hne _ hp _ _ _ ih =>
    cases h2 with
    | base => exact absurd rfl hne
    | step _ _ hp2 _ _ hc2 =>
      rw [hp] at hp2
      cases hp2
      rw [ih hc2]

/-- Along a parent chain every node has the next one as `parent`. -/
theorem ParentChain.chain_parent {m : RouteModel α} {start_node : Nat} {nodes : Nat → Node α}
    {v : Nat} {l : List Nat} (h : ParentChain m start_node nodes v l) :
    List.Chain' (fun a b => (nodes a).parent = some b) l := by
  induction h with
  | base => simp
  | step _ _ hp _ _ hc ih =>
    obtain ⟨r, rfl⟩ := hc.head
    exact List.chain'_cons.2 ⟨hp, ih⟩

theorem RunInv_init (m : RouteModel α) (start_node : Nat) (s : State α) (hfresh : Fresh s) :
    RunInv m start_node (s.nodes start_node).g_value [] (AStarSearch.init start_node s) := by
  have hvis : ∀ v, ((AStarSearch.init start_node s).nodes v).visited = true → v = start_node := by
    intro v hv
    by_contra hne
    simp [AStarSearch.init, Function.update_noteq hne, hfresh.2 v] at hv
  have hopen : (AStarSearch.init start_node s).open_list = [start_node] := by
    simp [AStarSearch.init, hfresh.1]
  refine ⟨by simp [AStarSearch.init], by simp [AStarSearch.init], ?_, ?_, ?_, ?_, ?_, ?_⟩
  · intro v hv
    rw [hopen, List.mem_singleton] at hv
    subst hv
    simp [AStarSearch.init]
  · intro v hv
    exact absurd hv (List.not_mem_nil _)
  · rw [hopen]
    simp
  · intro v hv
    right
    rw [hvis v hv, hopen]
    exact List.mem_singleton_self _
  · intro v hv
    rw [hvis v hv]
    exact ⟨_, ParentChain.base⟩
  · intro v l hl
    cases hl with
    | base => simp [AStarSearch.init, pathLength]
    | step hne hv _ _ _ _ => exact absurd (hvis _ hv) hne

/-- One iteration of the loop keeps `RunInv`, with the extracted node added to
the extracted nodes. -/
theorem RunInv_step {srt : StdSort} {m : RouteModel α} {start_node end_node : Nat} {g0 : α}
    {ex : List Nat} {s s1 : State α} {n : Nat} (hinv : RunInv m start_node g0 ex s)
    (hne : s.open_list ≠ []) (hN : NextNode srt s = .ok (n, s1)) :
    RunInv m start_node g0 (ex ++ [n]) (AddNeighbors m end_node n s1) := by
  obtain ⟨hn, hrest, hs1, _⟩ := NextNode_ok hN hne
  have hnv : (s.nodes n).visited = true := hinv.open_visited n hn
  have hs1n : s1.nodes = s.nodes := by rw [hs1]
  obtain ⟨ho, _, _, h4, h5⟩ := foldl_visit_post m end_node n (m.neighbors n) s1
  obtain ⟨_, hg⟩ := foldl_visit_g m end_node n (m.neighbors n) s1 (by
    intro _ hu
    rw [hs1n, hnv] at hu
    exact absurd hu (by simp))
  have hmemnew := mem_newNeighbors m n s1
  have hnodup := nodup_keepFirst ((m.neighbors n).filter (fun w => !(s1.nodes w).visited))
  change (AddNeighbors m end_node n s1).open_list = s1.open_list ++ newNeighbors m n s1 at ho
  change (newNeighbors m n s1).Nodup at hnodup
  generalize newNeighbors m n s1 = new at ho hmemnew hnodup
  change ∀ v, v ∈ m.neighbors n → (s1.nodes v).visited = false →
    ((AddNeighbors m end_node n s1).nodes v).visited = true ∧
    ((AddNeighbors m end_node n s1).nodes v).parent = some n ∧
    ((AddNeighbors m end_node n s1).nodes v).h_value = m.distance v end_node at h4
  change ∀ v, ¬ (v ∈ m.neighbors n ∧ (s1.nodes v).visited = false) →
    (AddNeighbors m end_node n s1).nodes v = s1.nodes v at h5
  change ∀ v, v ∈ m.neighbors n → (s1.nodes v).visited = false →
    ((AddNeighbors m end_node n s1).nodes v).g_value =
      (s1.nodes n).g_value + m.distance v n at hg
  generalize AddNeighbors m end_node n s1 = t at ho h4 h5 hg
  rw [hs1n] at h4 h5 hg hmemnew
  have hkeep : ∀ v, (s.nodes v).visited = true → t.nodes v = s.nodes v := by
    intro v hv
    apply h5
    rintro ⟨_, hu⟩
    rw [hv] at hu
    exact absurd hu (by simp)
  have hmono : ∀ v, (s.nodes v).visited = true → (t.nodes v).visited = true := by
    intro v hv
    rw [hkeep v hv]
    exact hv
  have hvis : ∀ v, (t.nodes v).visited = true → (s.nodes v).visited = true ∨ v ∈ new := by
    intro v hv
    by_cases hc : v ∈ m.neighbors n ∧ (s.nodes v).visited = false
    · exact Or.inr ((hmemnew v).2 hc)
    · left
      rw [h5 v hc] at hv
      exact hv
  have hnewu : ∀ v ∈ new, (s.nodes v).visited = false := fun v hv => ((hmemnew v).1 hv).2
  have hrestmem : ∀ v, v ∈ s.open_list → v ≠ n → v ∈ s1.open_list := by
    intro v hv hvn
    exact hrest.symm.subset ((List.mem_erase_of_ne hvn).2 hv)
  refine ⟨hmono _ hinv.start_visited, ?_, ?_, ?_, ?_, ?_, ?_, ?_⟩
  · rw [hkeep _ hinv.start_visited]
    exact hinv.g_start
  · intro v hv
    rw [ho] at hv
    rcases List.mem_append.1 hv with hv | hv
    · exact hmono v (hinv.open_visited v (List.mem_of_mem_erase (hrest.subset hv)))
    · exact (h4 v ((hmemnew v).1 hv).1 (hnewu v hv)).1
  · intro v hv
    rcases List.mem_append.1 hv with hv | hv
    · exact hmono v (hinv.ex_visited v hv)
    · rw [List.mem_singleton] at hv
      rw [hv]
      exact hmono n hnv
  · have hperm : ((ex ++ [n]) ++ t.open_list).Perm ((ex ++ s.open_list) ++ new) := by
      rw [ho, List.append_assoc, List.append_assoc, ← List.append_assoc [n]]
      refine List.Perm.append_left ex (List.Perm.append_right new ?_)
      exact (List.Perm.cons n hrest).trans (List.perm_cons_erase hn).symm
    rw [hperm.nodup_iff, List.nodup_append]
    refine ⟨hinv.nodup, hnodup, ?_⟩
    intro v hv1 hv2
    have hvv : (s.nodes v).visited = true := by
      rcases List.mem_append.1 hv1 with h | h
      · exact hinv.ex_visited v h
      · exact hinv.open_visited v h
    rw [hnewu v hv2] at hvv
    exact absurd hvv (by simp)
  · intro v hv
    rcases hvis v hv with hv | hv
    · rcases hinv.visited_mem v hv with h | h
      · exact Or.inl (List.mem_append_left _ h)
      · by_cases hvn : v = n
        · left
          rw [hvn]
          simp
        · right
          rw [ho]
          exact List.mem_append_left _ (hrestmem v h hvn)
    · right
      rw [ho]
      exact List.mem_append_right _ hv
  · intro v hv
    rcases hvis v hv with hv | hv
    · obtain ⟨l, hl⟩ := hinv.chain v hv
      exact ⟨l, hl.lift hkeep⟩
    · obtain ⟨l, hl⟩ := hinv.chain n hnv
      obtain ⟨hvn, hvu⟩ := (hmemnew v).1 hv
      obtain ⟨a, b, _⟩ := h4 v hvn hvu
      refine ⟨v :: l, ParentChain.step ?_ a b hvn ?_ (hl.lift hkeep)⟩
      · rintro rfl
        rw [hinv.start_visited] at hvu
        exact absurd hvu (by simp)
      · intro hmem
        rw [hl.visited hinv.start_visited v hmem] at hvu
        exact absurd hvu (by simp)
  · intro v l hl
    cases hl with
    | base => simp [pathLength, hkeep _ hinv.start_visited, hinv.g_start]
    | @step _ p l2 hvs hvt hp hvp hnot hc =>
      rcases hvis v hvt with hv | hv
      · obtain ⟨ls, hls⟩ := hinv.chain v hv
        have hu := (ParentChain.step hvs hvt hp hvp hnot hc).unique (hls.lift hkeep)
        rw [hu, hkeep v hv]
        exact hinv.g_chain v ls hls
      · obtain ⟨hvn, hvu⟩ := (hmemnew v).1 hv
        obtain ⟨_, b, _⟩ := h4 v hvn hvu
        rw [hp] at b
        have hpn : p = n := Option.some.inj b
        rw [hpn] at hc
        obtain ⟨ln, hln⟩ := hinv.chain n hnv
        have hu := hc.unique (hln.lift hkeep)
        subst hu
        obtain ⟨r, rfl⟩ := hln.head
        rw [hg v hvn hvu, hinv.g_chain n _ hln]
        simp only [pathLength]
        rw [add_comm (m.distance v n), add_assoc]

/-- Every state that the loop of `AStarSearch` reaches from a fresh state
satisfies `RunInv`. -/
theorem Reached.runInv {srt : StdSort} {m : RouteModel α} {start_node end_node : Nat}
    {s0 : State α} (hfresh : Fresh s0) {ex : List Nat} {s : State α}
    (h : Reached srt m end_node (AStarSearch.init start_node s0) ex s) :
    RunInv m start_node (s0.nodes start_node).g_value ex s := by
  induction h with
  | start => exact RunInv_init m start_node s0 hfresh
  | step _ hne hN _ ih => exact RunInv_step ih hne hN

/-- Every state that the loop reaches on a graph with `N` nodes satisfies `Inv`,
and each iteration lowers `open_list.length + unvisitedCount` by one. -/
theorem Reached.inv_count {srt : StdSort} {m : RouteModel α} {N start_node end_node : Nat}
    (hwf : WellFormed m N) {s0 : State α} (h0 : Inv m N start_node end_node s0)
    {ex : List Nat} {s : State α} (h : Reached srt m end_node s0 ex s) :
    Inv m N start_node end_node s ∧
    ex.length + (s.open_list.length + unvisitedCount N s.nodes) =
      s0.open_list.length + unvisitedCount N s0.nodes := by
  induction h with
  | start => exact ⟨h0, by simp⟩
  | @step ex s s1 n _ hne hN hnend ih =>
    obtain ⟨k, rest, hN2, hk, hrest, _⟩ := NextNode_spec srt s hne
    rw [hN2] at hN
    simp only [Except.ok.injEq, Prod.mk.injEq] at hN
    obtain ⟨rfl, rfl⟩ := hN
    obtain ⟨hinv2, hcount⟩ := Inv_step hwf ih.1 hk hrest hnend
    refine ⟨hinv2, ?_⟩
    have := ih.2
    rw [List.length_append, List.length_singleton]
    omega

/-- The fields of a visited node are never changed by later iterations. -/
theorem Reached.keep {srt : StdSort} {m : RouteModel α} {end_node : Nat} {s0 : State α}
    {ex : List Nat} {s : State α} (h : Reached srt m end_node s0 ex s) :
    ∀ v, (s0.nodes v).visited = true → s.nodes v = s0.nodes v := by
  induction h with
  | start => exact fun _ _ => rfl
  | @step ex s s1 n _ hne hN _ ih =>
    intro v hv
    obtain ⟨_, _, hs1, _⟩ := NextNode_ok hN hne
    have hs1n : s1.nodes = s.nodes := by rw [hs1]
    have h5 := (foldl_visit_post m end_node n (m.neighbors n) s1).2.2.2.2 v (by
      rintro ⟨_, hu⟩
      rw [hs1n, ih v hv, hv] at hu
      exact absurd hu (by simp))
    change (AddNeighbors m end_node n s1).nodes v = s1.nodes v at h5
    rw [h5, hs1n]
    exact ih v hv

theorem walk_short {m : RouteModel α} {start_node : Nat} {nodes : Nat → Node α}
    {v : Nat} {l : List Nat} (h : ParentChain m start_node nodes v l) :
    ∀ (fuel : Nat) (d : α) (acc : List (Snapshot α)), fuel + 1 < l.length →
      ConstructFinalPath.walk m start_node nodes fuel v d acc = .error Err.outOfFuel := by
  induction h with
  | base =>
    intro fuel d acc hlen
    simp at hlen
  | step hne _ hp _ _ hc ih =>
    intro fuel d acc hlen
    cases fuel with
    | zero =>
      unfold ConstructFinalPath.walk
      rw [if_neg hne]
    | succ f =>
      unfold ConstructFinalPath.walk
      rw [if_neg hne]
      simp only [hp]
      exact ih f _ _ (by simpa using hlen)

theorem walk_ne_emptyOpenList (m : RouteModel α) (start_node : Nat) (nodes : Nat → Node α) :
    ∀ (fuel v : Nat) (d : α) (acc : List (Snapshot α)),
      ConstructFinalPath.walk m start_node nodes fuel v d acc ≠ .error Err.emptyOpenList := by
  intro fuel
  induction fuel with
  | zero =>
    intro v d acc
    unfold ConstructFinalPath.walk
    by_cases hv : v = start_node
    · simp [hv]
    · simp [hv]
  | succ f ih =>
    intro v d acc
    unfold ConstructFinalPath.walk
    by_cases hv : v = start_node
    · simp [hv]
    · rw [if_neg hv]
      cases hp : (nodes v).parent with
      | none => simp
      | some p => exact ih _ _ _

theorem ConstructFinalPath_ne_emptyOpenList (m : RouteModel α) (start_node fuel : Nat)
    (s : State α) (v : Nat) :
    ConstructFinalPath m start_node fuel s v ≠ .error Err.emptyOpenList := by
  unfold ConstructFinalPath
  have h := walk_ne_emptyOpenList m start_node s.nodes fuel v 0 []
  cases hw : ConstructFinalPath.walk m start_node s.nodes fuel v 0 [] with
  | error e =>
    rw [hw] at h
    simpa using h
  | ok r => simp

/-- The loop of `AStarSearch` never calls `NextNode` on an empty `open_list`. -/
theorem AStarSearch.loop_ne_emptyOpenList (srt : StdSort) (m : RouteModel α)
    (start_node end_node pfuel : Nat) :
    ∀ (fuel : Nat) (s : State α),
      AStarSearch.loop srt m start_node end_node pfuel fuel s ≠ .error Err.emptyOpenList := by
  intro fuel
  induction fuel with
  | zero =>
    intro s
    by_cases he : s.open_list = []
    · rw [AStarSearch.loop_nil _ _ _ _ _ _ _ he]
      simp
    · rw [AStarSearch.loop_zero _ _ _ _ _ _ he]
      simp
  | succ fuel ih =>
    intro s
    by_cases he : s.open_list = []
    · rw [AStarSearch.loop_nil _ _ _ _ _ _ _ he]
      simp
    · obtain ⟨n, rest, hN, _⟩ := NextNode_spec srt s he
      rw [AStarSearch.loop_succ _ _ _ _ _ _ _ he _ _ hN]
      by_cases hne : n = end_node
      · rw [if_pos hne]
        have hC := ConstructFinalPath_ne_emptyOpenList m start_node pfuel
          { s with open_list := rest } n
        cases hr : ConstructFinalPath m start_node pfuel { s with open_list := rest } n with
        | error e =>
          rw [hr] at hC
          simpa using hC
        | ok r => simp
      · rw [if_neg hne]
        exact ih _

/-- What the loop of `AStarSearch` returns, in terms of the states it reaches: at
the `exhausted` exit the state at the loop head, with `open_list` empty; at the
`found` exit the result of `ConstructFinalPath` after `NextNode` has returned
`end_node` at a reached loop head. -/
theorem AStarSearch.loop_reached (srt : StdSort) (m : RouteModel α)
    (start_node end_node pfuel : Nat) (s0 : State α) :
    ∀ (fuel : Nat) (ex : List Nat) (s : State α) (r : Exit × State α),
      Reached srt m end_node s0 ex s →
      AStarSearch.loop srt m start_node end_node pfuel fuel s = .ok r →
      (r.1 = Exit.exhausted ∧ r.2.open_list = [] ∧
        ∃ ex2, Reached srt m end_node s0 ex2 r.2) ∨
      (r.1 = Exit.found ∧ ∃ ex2 u s1 p s2, Reached srt m end_node s0 ex2 u ∧
        u.open_list ≠ [] ∧ NextNode srt u = .ok (end_node, s1) ∧
        ConstructFinalPath m start_node pfuel s1 end_node = .ok (p, s2) ∧
        r.2 = { s2 with path := p, open_list := [] }) := by
  intro fuel
  induction fuel with
  | zero =>
    intro ex s r hr h
    by_cases he : s.open_list = []
    · rw [AStarSearch.loop_nil _ _ _ _ _ _ _ he] at h
      simp only [Except.ok.injEq] at h
      subst h
      exact Or.inl ⟨rfl, he, ex, hr⟩
    · rw [AStarSearch.loop_zero _ _ _ _ _ _ he] at h
      simp at h
  | succ fuel ih =>
    intro ex s r hr h
    by_cases he : s.open_list = []
    · rw [AStarSearch.loop_nil _ _ _ _ _ _ _ he] at h
      simp only [Except.ok.injEq] at h
      subst h
      exact Or.inl ⟨rfl, he, ex, hr⟩
    · obtain ⟨n, rest, hN, _⟩ := NextNode_spec srt s he
      rw [AStarSearch.loop_succ _ _ _ _ _ _ _ he _ _ hN] at h
      by_cases hne : n = end_node
      · subst hne
        rw [if_pos rfl] at h
        cases hC : ConstructFinalPath m start_node pfuel { s with open_list := rest } n with
        | error e => simp [hC] at h
        | ok ps =>
          obtain ⟨p, s2⟩ := ps
          simp only [hC, Except.ok.injEq] at h
          subst h
          exact Or.inr ⟨rfl, ex, s, _, p, s2, hr, he, hN, hC, rfl⟩
      · rw [if_neg hne] at h
        exact ih _ _ r (Reached.step hr he hN hne) h

theorem ConstructFinalPath_nodes {m : RouteModel α} {start_node fuel : Nat} {s s2 : State α}
    {v : Nat} {p : List (Snapshot α)}
    (h : ConstructFinalPath m start_node fuel s v = .ok (p, s2)) : s2.nodes = s.nodes := by
  unfold ConstructFinalPath at h
  cases hw : ConstructFinalPath.walk m start_node s.nodes fuel v 0 [] with
  | error e => simp [hw] at h
  | ok r =>
    simp only [hw, Except.ok.injEq, Prod.mk.injEq] at h
    rw [← h.2]

/-- The `found` exit of `AStarSearch` from a fresh state: `end_node` was extracted
at a reached loop head `u`, the node fields are those of `u`, and the path and
the distance are those of the parent chain of `end_node`, which
`ConstructFinalPath` walked within its fuel. -/
theorem AStarSearch.run_found {srt : StdSort} {m : RouteModel α}
    {start_node end_node fuel : Nat} {s0 : State α} (hfresh : Fresh s0)
    {r : Exit × State α}
    (h : AStarSearch.run srt m start_node end_node fuel s0 = .ok r) (hf : r.1 = Exit.found) :
    ∃ ex u l, Reached srt m end_node (AStarSearch.init start_node s0) ex u ∧
      end_node ∈ u.open_list ∧ r.2.nodes = u.nodes ∧
      ParentChain m start_node u.nodes end_node l ∧ l.length ≤ fuel + 1 ∧
      r.2.path = l.reverse.map (fun i => Snapshot.mk i (u.nodes i)) ∧
      r.2.distance = pathLength m.distance l * m.MetricScale := by
  rcases AStarSearch.loop_reached srt m start_node end_node fuel
    (AStarSearch.init start_node s0) fuel [] _ r Reached.start h with
    ⟨hex, _⟩ | ⟨_, ex, u, s1, p, s2, hr, hne, hN, hC, hr2⟩
  · rw [hf] at hex
    exact absurd hex (by decide)
  · obtain ⟨hn, _, hs1, _⟩ := NextNode_ok hN hne
    have hs1n : s1.nodes = u.nodes := by rw [hs1]
    have hinv := hr.runInv hfresh
    obtain ⟨l, hl⟩ := hinv.chain end_node (hinv.open_visited _ hn)
    have hl1 : ParentChain m start_node s1.nodes end_node l := by
      rw [hs1n]
      exact hl
    have hlen : l.length ≤ fuel + 1 := by
      by_contra hlt
      have hw := walk_short hl1 fuel 0 [] (by omega)
      unfold ConstructFinalPath at hC
      rw [hw] at hC
      simp at hC
    rw [ConstructFinalPath_of_chain hl1 fuel hlen] at hC
    simp only [Except.ok.injEq, Prod.mk.injEq] at hC
    obtain ⟨hp, hs2⟩ := hC
    refine ⟨ex, u, l, hr, hn, ?_, hl, hlen, ?_, ?_⟩
    · rw [hr2, ← hs2]
      exact hs1n
    · rw [hr2, ← hp, hs1n]
    · rw [hr2, ← hs2]

theorem lineStep1_reached :
    Reached insertionStdSort lineModel 2 (AStarSearch.init 0 freshState) [0] lineStep1 :=
  Reached.step Reached.start (by decide) rfl (by decide)

/-- C11 (frontier invariant). In every state that the loop of `AStarSearch`
reaches from a fresh state, with `ex` the nodes extracted by `NextNode` so far:
every node of `open_list` is visited and `open_list` has no node twice; the
nodes inserted so far, which are those of `ex` and of `open_list`, are the
visited nodes and none occurs twice among them, so no node was inserted or
extracted twice; and the fields of a visited node, its parent among them, are
never changed by the later iterations, so a parent is assigned at most once. -/
theorem C11_frontier_invariant (srt : StdSort) (m : RouteModel α) (start_node end_node : Nat)
    (s0 : State α) (hfresh : Fresh s0) (ex : List Nat) (s : State α)
    (hr : Reached srt m end_node (AStarSearch.init start_node s0) ex s) :
    (∀ v ∈ s.open_list, (s.nodes v).visited = true) ∧
    s.open_list.Nodup ∧ ex.Nodup ∧ (ex ++ s.open_list).Nodup ∧
    (∀ v, (s.nodes v).visited = true ↔ v ∈ ex ∨ v ∈ s.open_list) ∧
    (∀ ex2 s2, Reached srt m end_node s ex2 s2 →
      ∀ v, (s.nodes v).visited = true → s2.nodes v = s.nodes v) := by
  have hinv := hr.runInv hfresh
  have hnd := List.nodup_append.1 hinv.nodup
  refine ⟨hinv.open_visited, hnd.2.1, hnd.1, hinv.nodup, ?_, ?_⟩
  · intro v
    constructor
    · exact hinv.visited_mem v
    · rintro (h | h)
      · exact hinv.ex_visited v h
      · exact hinv.open_visited v h
  · intro ex2 s2 h2
    exact h2.keep

/-- Witness of C11 on the line graph, in the state after the first iteration of
the search from node 0 to node 2: node 0 is extracted, `open_list` is `[1]`. -/
theorem C11_frontier_invariant_witness :
    Reached insertionStdSort lineModel 2 (AStarSearch.init 0 freshState) [0] lineStep1 ∧
    lineStep1.open_list = [1] ∧
    ((∀ v ∈ lineStep1.open_list, (lineStep1.nodes v).visited = true) ∧
    lineStep1.open_list.Nodup ∧ [0].Nodup ∧ ([0] ++ lineStep1.open_list).Nodup ∧
    (∀ v, (lineStep1.nodes v).visited = true ↔ v ∈ [0] ∨ v ∈ lineStep1.open_list) ∧
    (∀ ex2 s2, Reached insertionStdSort lineModel 2 lineStep1 ex2 s2 →
      ∀ v, (lineStep1.nodes v).visited = true → s2.nodes v = lineStep1.nodes v)) :=
  ⟨lineStep1_reached, by decide,
   C11_frontier_invariant insertionStdSort lineModel 0 2 freshState freshState_fresh [0]
    lineStep1 lineStep1_reached⟩

/-- C15 (parent walk). On a graph with `N` nodes, from a fresh state: in every
state that the loop of `AStarSearch` reaches, the parent links from any visited
node `v` lead to `start_node` through a list `l` of nodes without repetition,
each with the next one as parent, and the loop of `ConstructFinalPath` from `v`
returns with fuel for `l.length - 1` iterations and runs out of fuel with less
(it never meets an unset parent). The search returns, and at the `found` exit
the loop of `ConstructFinalPath(end_node)` takes exactly `path.length - 1`
iterations. -/
theorem C15_parent_walk (srt : StdSort) (m : RouteModel α) (N start_node end_node : Nat)
    (fuel : Nat) (s0 : State α) (hwf : WellFormed m N) (hstart : start_node < N)
    (hfresh : Fresh s0) (hfuel : N ≤ fuel) :
    (∀ ex s, Reached srt m end_node (AStarSearch.init start_node s0) ex s →
      ∀ v, (s.nodes v).visited = true →
        ∃ l : List Nat, l.head? = some v ∧ l.getLast? = some start_node ∧ l.Nodup ∧
          List.Chain' (fun a b => (s.nodes a).parent = some b) l ∧
          (∀ pf, l.length ≤ pf + 1 →
            ConstructFinalPath.walk m start_node s.nodes pf v 0 [] =
              .ok (pathLength m.distance l,
                   l.dropLast.map (fun i => Snapshot.mk i (s.nodes i)), start_node)) ∧
          (∀ pf, pf + 1 < l.length →
            ConstructFinalPath.walk m start_node s.nodes pf v 0 [] =
              .error Err.outOfFuel)) ∧
    (∃ r, AStarSearch.run srt m start_node end_node fuel s0 = .ok r ∧
      (r.1 = Exit.found → ∀ pf,
        (r.2.path.length ≤ pf + 1 →
          ∃ res, ConstructFinalPath.walk m start_node r.2.nodes pf end_node 0 [] = .ok res) ∧
        (pf + 1 < r.2.path.length →
          ConstructFinalPath.walk m start_node r.2.nodes pf end_node 0 [] =
            .error Err.outOfFuel))) := by
  constructor
  · intro ex s hr v hv
    have hinv := hr.runInv hfresh
    obtain ⟨l, hl⟩ := hinv.chain v hv
    obtain ⟨t, ht⟩ := hl.head
    refine ⟨l, by rw [ht]; rfl, hl.getLast, hl.nodup, hl.chain_parent, ?_, ?_⟩
    · intro pf hpf
      rw [walk_of_chain hl pf 0 [] hpf]
      simp
    · intro pf hpf
      exact walk_short hl pf 0 [] hpf
  · obtain ⟨r, hr, _⟩ :=
      AStarSearch.run_spec srt m N start_node end_node fuel s0 hwf hstart hfresh hfuel
    refine ⟨r, hr, fun hf pf => ?_⟩
    obtain ⟨ex, u, l, _, _, hnodes, hl, _, hp, _⟩ := AStarSearch.run_found hfresh hr hf
    have hlen : r.2.path.length = l.length := by
      rw [hp]
      simp
    rw [hnodes, hlen]
    constructor
    · intro hpf
      exact ⟨_, walk_of_chain hl pf 0 [] hpf⟩
    · intro hpf
      exact walk_short hl pf 0 [] hpf

/-- Witness of C15 on the line graph, searched from node 0 to node 2: the path has
3 nodes and `ConstructFinalPath` needs exactly 2 iterations. -/
theorem C15_parent_walk_witness :
    (∃ l : List Nat, l.head? = some 1 ∧ l.getLast? = some 0 ∧ l.Nodup ∧
      List.Chain' (fun a b => (lineStep1.nodes a).parent = some b) l ∧
      (∀ pf, l.length ≤ pf + 1 →
        ConstructFinalPath.walk lineModel 0 lineStep1.nodes pf 1 0 [] =
          .ok (pathLength lineModel.distance l,
               l.dropLast.map (fun i => Snapshot.mk i (lineStep1.nodes i)), 0)) ∧
      (∀ pf, pf + 1 < l.length →
        ConstructFinalPath.walk lineModel 0 lineStep1.nodes pf 1 0 [] =
          .error Err.outOfFuel)) ∧
    (∃ r, AStarSearch.run insertionStdSort lineModel 0 2 3 freshState = .ok r ∧
      (r.1 = Exit.found → ∀ pf,
        (r.2.path.length ≤ pf + 1 →
          ∃ res, ConstructFinalPath.walk lineModel 0 r.2.nodes pf 2 0 [] = .ok res) ∧
        (pf + 1 < r.2.path.length →
          ConstructFinalPath.walk lineModel 0 r.2.nodes pf 2 0 [] =
            .error Err.outOfFuel))) ∧
    (AStarSearch.run insertionStdSort lineModel 0 2 3 freshState).toOption.map
      (fun r => (r.1, r.2.path.length,
        (ConstructFinalPath.walk lineModel 0 r.2.nodes 2 2 0 []).isOk,
        (ConstructFinalPath.walk lineModel 0 r.2.nodes 1 2 0 []).isOk)) =
      some (Exit.found, 3, true, false) :=
  ⟨(C15_parent_walk insertionStdSort lineModel 3 0 2 3 freshState lineModel_wf (by decide)
    freshState_fresh (le_refl 3)).1 [0] lineStep1 lineStep1_reached 1 (by decide),
   (C15_parent_walk insertionStdSort lineModel 3 0 2 3 freshState lineModel_wf (by decide)
    freshState_fresh (le_refl 3)).2, by decide⟩

/-- C16 (search termination). On a graph with `N` nodes, from a fresh state, the
loop of `AStarSearch` returns (through the `found` or the `exhausted` exit)
within `N` iterations, that is `N` calls of `NextNode`; at every loop head the
nodes extracted so far and the nodes in `open_list` are at most `N` together;
and `NextNode` is never called on an empty `open_list`. -/
theorem C16_termination (srt : StdSort) (m : RouteModel α) (N start_node end_node : Nat)
    (s0 : State α) (hwf : WellFormed m N) (hstart : start_node < N) (hfresh : Fresh s0) :
    (∃ r, AStarSearch.run srt m start_node end_node N s0 = .ok r ∧
      (r.1 = Exit.found ∨ r.1 = Exit.exhausted)) ∧
    (∀ ex s, Reached srt m end_node (AStarSearch.init start_node s0) ex s →
      ex.length + s.open_list.length ≤ N) ∧
    (∀ fuel, AStarSearch.run srt m start_node end_node fuel s0 ≠ .error Err.emptyOpenList) := by
  refine ⟨?_, ?_, ?_⟩
  · obtain ⟨r, hr, hcases⟩ :=
      AStarSearch.run_spec srt m N start_node end_node N s0 hwf hstart hfresh (le_refl N)
    refine ⟨r, hr, ?_⟩
    rcases hcases with ⟨h, _⟩ | ⟨h, _⟩
    · exact Or.inl h
    · exact Or.inr h
  · intro ex s hr
    have h := (hr.inv_count hwf (Inv_init m N start_node end_node s0 hfresh hstart)).2
    have h0 := unvisitedCount_init N start_node s0 hfresh hstart
    omega
  · intro fuel
    exact AStarSearch.loop_ne_emptyOpenList srt m start_node end_node fuel fuel _

/-- Witness of C16 on the line graph (3 nodes), searched from node 0 to node 2. -/
theorem C16_termination_witness :
    ((∃ r, AStarSearch.run insertionStdSort lineModel 0 2 3 freshState = .ok r ∧
      (r.1 = Exit.found ∨ r.1 = Exit.exhausted)) ∧
    (∀ ex s, Reached insertionStdSort lineModel 2 (AStarSearch.init 0 freshState) ex s →
      ex.length + s.open_list.length ≤ 3) ∧
    (∀ fuel, AStarSearch.run insertionStdSort lineModel 0 2 fuel freshState ≠
      .error Err.emptyOpenList)) ∧
    (AStarSearch.run insertionStdSort lineModel 0 2 2 freshState).isOk = false :=
  ⟨C16_termination insertionStdSort lineModel 3 0 2 freshState lineModel_wf (by decide)
    freshState_fresh, by decide⟩

/-- C18 (`g_value` tracks the parent chain). On a graph with `N` nodes, from a
fresh state in which `start_node` has `g_value` 0: in every state that the loop
of `AStarSearch` reaches, the parent links from any visited node `v` lead to
`start_node` through a list `l` of nodes, and the `g_value` of `v` is the sum of
`distance(a, parent(a))` over the nodes `a` of `l` before `start_node`. The
search returns, and at the `found` exit the distance it sets is `MetricScale()`
times the `g_value` of `end_node`. -/
theorem C18_g_value (srt : StdSort) (m : RouteModel α) (N start_node end_node : Nat)
    (fuel : Nat) (s0 : State α) (hwf : WellFormed m N) (hstart : start_node < N)
    (hfresh : Fresh s0) (hfuel : N ≤ fuel) (hg : (s0.nodes start_node).g_value = 0) :
    (∀ ex s, Reached srt m end_node (AStarSearch.init start_node s0) ex s →
      ∀ v, (s.nodes v).visited = true →
        ∃ l : List Nat, l.head? = some v ∧ l.getLast? = some start_node ∧
          List.Chain' (fun a b => (s.nodes a).parent = some b) l ∧
          (s.nodes v).g_value = pathLength m.distance l) ∧
    (∃ r, AStarSearch.run srt m start_node end_node fuel s0 = .ok r ∧
      (r.1 = Exit.found →
        r.2.distance = m.MetricScale * (r.2.nodes end_node).g_value)) := by
  constructor
  · intro ex s hr v hv
    have hinv := hr.runInv hfresh
    obtain ⟨l, hl⟩ := hinv.chain v hv
    obtain ⟨t, ht⟩ := hl.head
    refine ⟨l, by rw [ht]; rfl, hl.getLast, hl.chain_parent, ?_⟩
    rw [hinv.g_chain v l hl, hg, zero_add]
  · obtain ⟨r, hr, _⟩ :=
      AStarSearch.run_spec srt m N start_node end_node fuel s0 hwf hstart hfresh hfuel
    refine ⟨r, hr, fun hf => ?_⟩
    obtain ⟨ex, u, l, hreach, _, hnodes, hl, _, _, hd⟩ := AStarSearch.run_found hfresh hr hf
    have hinv := hreach.runInv hfresh
    rw [hd, hnodes, hinv.g_chain end_node l hl, hg, zero_add, mul_comm]

/-- Witness of C18 on the line graph, searched from node 0 to node 2: the
`g_value` of node 2 is 7 and the distance is 14. -/
theorem C18_g_value_witness :
    (∃ l : List Nat, l.head? = some 1 ∧ l.getLast? = some 0 ∧
      List.Chain' (fun a b => (lineStep1.nodes a).parent = some b) l ∧
      (lineStep1.nodes 1).g_value = pathLength lineModel.distance l) ∧
    (lineStep1.nodes 1).g_value = 3 ∧
    (∃ r, AStarSearch.run insertionStdSort lineModel 0 2 3 freshState = .ok r ∧
      (r.1 = Exit.found →
        r.2.distance = lineModel.MetricScale * (r.2.nodes 2).g_value)) ∧
    (AStarSearch.run insertionStdSort lineModel 0 2 3 freshState).toOption.map
      (fun r => (r.1, (r.2.nodes 2).g_value, r.2.distance)) = some (Exit.found, 7, 14) :=
  ⟨(C18_g_value insertionStdSort lineModel 3 0 2 3 freshState lineModel_wf (by decide)
    freshState_fresh (le_refl 3) rfl).1 [0] lineStep1 lineStep1_reached 1 (by decide),
   by decide,
   (C18_g_value insertionStdSort lineModel 3 0 2 3 freshState lineModel_wf (by decide)
    freshState_fresh (le_refl 3) rfl).2, by decide⟩

/-- C19 (the returned path is simple). On a graph with `N` nodes, from a fresh
state, the search returns, and if it reaches `end_node` no node occurs twice in
the path stored in `m_Model.path`, which has at most `N` elements. -/
theorem C19_simple_path (srt : StdSort) (m : RouteModel α) (N start_node end_node : Nat)
    (fuel : Nat) (s0 : State α) (hwf : WellFormed m N) (hstart : start_node < N)
    (hfresh : Fresh s0) (hfuel : N ≤ fuel) :
    ∃ r, AStarSearch.run srt m start_node end_node fuel s0 = .ok r ∧
      (r.1 = Exit.found → (pathIds r.2.path).Nodup ∧ r.2.path.length ≤ N) := by
  obtain ⟨r, hr, _⟩ :=
    AStarSearch.run_spec srt m N start_node end_node fuel s0 hwf hstart hfresh hfuel
  refine ⟨r, hr, fun hf => ?_⟩
  obtain ⟨ex, u, l, hreach, _, _, hl, _, hp, _⟩ := AStarSearch.run_found hfresh hr hf
  have hinv := (hreach.inv_count hwf (Inv_init m N start_node end_node s0 hfresh hstart)).1
  constructor
  · rw [hp, pathIds_snapshots]
    exact List.nodup_reverse.2 hl.nodup
  · rw [hp]
    simpa using hl.length_le N hinv.start_visited hinv.visited_lt

/-- Witness of C19 on the line graph, searched from node 0 to node 2. -/
theorem C19_simple_path_witness :
    (∃ r, AStarSearch.run insertionStdSort lineModel 0 2 3 freshState = .ok r ∧
      (r.1 = Exit.found → (pathIds r.2.path).Nodup ∧ r.2.path.length ≤ 3)) ∧
    (AStarSearch.run insertionStdSort lineModel 0 2 3 freshState).toOption.map
      (fun r => (r.1, pathIds r.2.path)) = some (Exit.found, [0, 1, 2]) :=
  ⟨C19_simple_path insertionStdSort lineModel 3 0 2 3 freshState lineModel_wf (by decide)
    freshState_fresh (le_refl 3), by decide⟩

theorem lineModel_reachable : Reachable lineModel 0 2 :=
  Relation.ReflTransGen.tail
    (Relation.ReflTransGen.single (show (1 : Nat) ∈ lineModel.neighbors 0 by decide))
    (show (2 : Nat) ∈ lineModel.neighbors 1 by decide)

theorem lineModel_tieFree : TieFreeRun lineModel 2 (AStarSearch.init 0 freshState) := by
  refine @TieFreeRun.step _ _ _ _ _ 0 (by decide) (by decide) (by decide) ?_
  refine @TieFreeRun.step _ _ _ _ _ 1 (by decide) (by decide) (by decide) ?_
  exact TieFreeRun.found (by decide) (by decide)

theorem lineFound_tieFree : TieFreeRun lineModel 2 (AStarSearch.init 0 lineFound) := by
  refine @TieFreeRun.step _ _ _ _ _ 0 (by decide) (by decide) (by decide) ?_
  exact TieFreeRun.exhausted (by decide)

theorem lineFound_eq :
    AStarSearch.run insertionStdSort lineModel 0 2 3 freshState =
      .ok (Exit.found, lineFound) := by
  rfl

/-- C17 (stale state breaks a second query). On the line graph 0 - 1 - 2, node 2
is reachable from node 0 and differs from it. With any sort procedure, the first
search from 0 to 2 finds the path 0, 1, 2 and leaves the state `lineFound`, in
which node 1, a neighbour of node 0, is still marked visited. A second search
from 0 to 2 started in that state skips node 1 and leaves through the
`exhausted` exit with `open_list` empty; the path and the distance of the first
search are still in place. -/
theorem C17_stale_state :
    (0 : Nat) ≠ 2 ∧ Reachable lineModel 0 2 ∧
    ∀ srt : StdSort,
      AStarSearch.run srt lineModel 0 2 3 freshState = .ok (Exit.found, lineFound) ∧
      pathIds lineFound.path = [0, 1, 2] ∧
      1 ∈ lineModel.neighbors 0 ∧ (lineFound.nodes 1).visited = true ∧
      (AStarSearch.run srt lineModel 0 2 3 lineFound).toOption.map
        (fun r => (r.1, r.2.open_list, pathIds r.2.path, r.2.distance)) =
        some (Exit.exhausted, [], [0, 1, 2], 14) := by
  refine ⟨by decide, lineModel_reachable, fun srt => ⟨?_, by decide, by decide, by decide, ?_⟩⟩
  · rw [AStarSearch.run_tieFree srt insertionStdSort lineModel 0 2 3 freshState
      lineModel_tieFree]
    exact lineFound_eq
  · rw [AStarSearch.run_tieFree srt insertionStdSort lineModel 0 2 3 lineFound
      lineFound_tieFree]
    decide

end Lemmas

end RoutePlanner
